import Mathlib

/-!
Verification of the c2gofmt tree-rewriting pipeline (rsc/cmd).

The C syntax tree of the `internal/cc` package is embedded as a family of
mutually inductive Lean types mirroring the Go structs field by field.  The
pipeline passes (`rewriteSyntax`'s boolean fixup, `simplifyBool`,
`rewriteSwitch`, the side-effect extractor `doSideEffects`, the declaration
mover `moveDecls`/`moveFuncDecls`, and the renamer `renameDecls`) are
translated into pure functions over this embedding; Go's in-place mutation
becomes functional update, and Go pointer identity of `*cc.Decl` values is
modelled by a numeric `id` field (pointer equality becomes id equality).
The pattern-rewrite engine over the Go AST and the parse-loop driver are
embedded separately at the end of the file.
-/

namespace CC

/-- Modelled from the spec (§3): the expression operators of `cc.ExprOp`
used by the passes under verification, plus the Go-specific operators
(`ColonEq`, `ExprBlock`, `SideEffectFunc`) introduced by rewriting.
`internal/cc` itself is not under src/. -/
inductive ExprOp where
  | name | number | add | sub | minus | paren | dot | arrow | call | index
  | not | andand | oror
  | eqeq | noteq | lt | lteq | gt | gteq
  | eq | addeq | subeq | muleq | diveq | modeq | xoreq | oreq | andeq | lsheq | rsheq
  | preinc | predec | postinc | postdec
  | comma | cond
  | colonEq | exprBlock | sideEffectFunc
  deriving DecidableEq, Repr

/-- Modelled from the spec (§3): the statement operators of `cc.StmtOp`,
plus `BlockNoBrace` and `Fallthrough` introduced by rewriting. -/
inductive StmtOp where
  | empty | block | blockNoBrace | stmtExpr | stmtDecl
  | sIf | sFor | sWhile | sDo | sSwitch
  | sReturn | sBreak | sContinue | sGoto
  | argbegin | fallthrough
  deriving DecidableEq, Repr

/-- Modelled from the spec (§3): label kinds of `cc.Label`. -/
inductive LabelOp where
  | labelName | lCase | lDefault
  deriving DecidableEq, Repr

/-- Modelled from the spec (§3): the kind tags of `cc.Type`.  Only the
kind field of `cc.Type` is read by the embedded passes, so the type is
modelled by its kind alone. -/
inductive TypeKind where
  | void | intKind | float32 | float64 | ptr | array | slice
  | structKind | enum | func | typedefType | named
  deriving DecidableEq, Repr

/-- Modelled from the spec (§3): `cc.Type`, reduced to the `Kind` field,
the only field of `cc.Type` the embedded passes consult. -/
structure CType where
  kind : TypeKind
  deriving DecidableEq, Repr

/-- Modelled from the spec (§3): the comment block of `cc.SyntaxInfo`
(`Before`, `After`, `Suffix`), keeping only the comment texts. -/
structure Comments where
  before : List String
  after : List String
  suffix : List String
  deriving DecidableEq, Repr

/-- Comment blocks never influence control flow of the passes, so they are
given constant size; this lets functions that clear comments (`copyExpr`,
`copyStmt`) participate in structural termination measures. -/
instance : SizeOf Comments := ⟨fun _ => 1⟩

def Comments.empty : Comments := ⟨[], [], []⟩

/-- The six comparison operators named by the boolean-simplification claim. -/
def isCmpOp (op : ExprOp) : Bool :=
  op = ExprOp.eqeq ∨ op = ExprOp.noteq ∨ op = ExprOp.lt ∨
  op = ExprOp.lteq ∨ op = ExprOp.gt ∨ op = ExprOp.gteq

/-- The comparison inversion table of `simplifyBool`, stated once for the
specification theorems: `!(a OP b)` becomes `a (flipCmp OP) b`. -/
def flipCmp : ExprOp → ExprOp
  | .eqeq => .noteq
  | .noteq => .eqeq
  | .lt => .gteq
  | .lteq => .gt
  | .gt => .lteq
  | .gteq => .lt
  | op => op

mutual
/-- `cc.Expr`: Op, Text, Left, Right, List, Block, After, XType, XDecl,
and the comment block of its SyntaxInfo. -/
inductive Expr where
  | mk (op : ExprOp) (text : String) (left : Option Expr) (right : Option Expr)
      (list : List Expr) (block : List Stmt) (after : List Stmt)
      (xtype : Option CType) (xdecl : Option Decl) (comments : Comments) : Expr

/-- `cc.Stmt`: Op, Pre, Expr, Post, Body, Else, Block, Labels, Text, Decl,
and the comment block of its SyntaxInfo. -/
inductive Stmt where
  | mk (op : StmtOp) (pre : Option Expr) (expr : Option Expr) (post : Option Expr)
      (body : Option Stmt) (els : Option Stmt) (block : List Stmt)
      (labels : List Label) (text : String) (decl : Option Decl)
      (comments : Comments) : Stmt

/-- `cc.Decl`, restricted to the fields the embedded passes read:
Name, Storage, Type, Init, Body.  The `id` field models Go pointer
identity of `*cc.Decl` values: two occurrences with the same id stand for
the same heap object, and Go pointer comparison is id comparison. -/
inductive Decl where
  | mk (id : Nat) (name : String) (storage : Nat) (typ : Option CType)
      (init : Option Init) (body : Option Stmt) : Decl

/-- `cc.Init`: Expr and Braced. -/
inductive Init where
  | mk (expr : Option Expr) (braced : List Init) : Init

/-- `cc.Label`: Op, Name, Expr. -/
inductive Label where
  | mk (op : LabelOp) (name : String) (expr : Option Expr) : Label
end

def Expr.op : Expr → ExprOp
  | .mk op _ _ _ _ _ _ _ _ _ => op

def Expr.text : Expr → String
  | .mk _ text _ _ _ _ _ _ _ _ => text

def Expr.left : Expr → Option Expr
  | .mk _ _ left _ _ _ _ _ _ _ => left

def Expr.right : Expr → Option Expr
  | .mk _ _ _ right _ _ _ _ _ _ => right

def Expr.list : Expr → List Expr
  | .mk _ _ _ _ list _ _ _ _ _ => list

def Expr.block : Expr → List Stmt
  | .mk _ _ _ _ _ block _ _ _ _ => block

def Expr.after : Expr → List Stmt
  | .mk _ _ _ _ _ _ after _ _ _ => after

def Expr.xtype : Expr → Option CType
  | .mk _ _ _ _ _ _ _ xtype _ _ => xtype

def Expr.xdecl : Expr → Option Decl
  | .mk _ _ _ _ _ _ _ _ xdecl _ => xdecl

def Expr.comments : Expr → Comments
  | .mk _ _ _ _ _ _ _ _ _ comments => comments

def Stmt.op : Stmt → StmtOp
  | .mk op _ _ _ _ _ _ _ _ _ _ => op

def Stmt.pre : Stmt → Option Expr
  | .mk _ pre _ _ _ _ _ _ _ _ _ => pre

def Stmt.expr : Stmt → Option Expr
  | .mk _ _ expr _ _ _ _ _ _ _ _ => expr

def Stmt.post : Stmt → Option Expr
  | .mk _ _ _ post _ _ _ _ _ _ _ => post

def Stmt.body : Stmt → Option Stmt
  | .mk _ _ _ _ body _ _ _ _ _ _ => body

def Stmt.els : Stmt → Option Stmt
  | .mk _ _ _ _ _ els _ _ _ _ _ => els

def Stmt.block : Stmt → List Stmt
  | .mk _ _ _ _ _ _ block _ _ _ _ => block

def Stmt.labels : Stmt → List Label
  | .mk _ _ _ _ _ _ _ labels _ _ _ => labels

def Stmt.text : Stmt → String
  | .mk _ _ _ _ _ _ _ _ text _ _ => text

def Stmt.decl : Stmt → Option Decl
  | .mk _ _ _ _ _ _ _ _ _ decl _ => decl

def Stmt.comments : Stmt → Comments
  | .mk _ _ _ _ _ _ _ _ _ _ comments => comments

def Label.op : Label → LabelOp
  | .mk op _ _ => op

def Label.name : Label → String
  | .mk _ name _ => name

def Label.expr : Label → Option Expr
  | .mk _ _ expr => expr

def Decl.id : Decl → Nat
  | .mk id _ _ _ _ _ => id

def Decl.name : Decl → String
  | .mk _ name _ _ _ _ => name

def Decl.storage : Decl → Nat
  | .mk _ _ storage _ _ _ => storage

def Decl.typ : Decl → Option CType
  | .mk _ _ _ typ _ _ => typ

def Decl.init : Decl → Option Init
  | .mk _ _ _ _ init _ => init

def Decl.body : Decl → Option Stmt
  | .mk _ _ _ _ _ body => body

/-- `isfloat` (rewrite-c file): `t != nil && (t.Kind == Float32 || t.Kind == Float64)`. -/
def isfloat : Option CType → Bool
  | some t => t.kind = TypeKind.float32 ∨ t.kind = TypeKind.float64
  | none => false

/-- The `for y.Op == cc.Paren { y = y.Left }` loop that `simplifyBool`
runs on the operand of a negation. -/
def stripParens : Expr → Expr
  | .mk .paren text (some l) right list block after xtype xdecl com =>
    match l with
    | .mk lop a b c d e f g h i =>
      if lop = ExprOp.paren then stripParens (.mk lop a b c d e f g h i)
      else .mk lop a b c d e f g h i
  | e => e
termination_by e => sizeOf e
decreasing_by
  simp_wf
  omega

/-- A fresh `&cc.Expr{Op: cc.Not, Left: l}` literal as built by `simplifyBool`. -/
def mkNotE (l : Option Expr) : Expr :=
  .mk .not "" l none [] [] [] none none Comments.empty

/-- The callback body of `simplifyBool`'s post-order walk: transform a
`!` node by De Morgan / comparison inversion, guarded on float XType. -/
def simplifyNot (x : Expr) : Expr :=
  match x with
  | .mk .not ntext (some l) nright nlist nblock nafter nxt nxd ncom =>
    let y := stripParens l
    match y with
    | .mk yop ytext yleft yright ylist yblock yafter yxt yxd ycom =>
      match yop with
      | .andand =>
        .mk .oror ytext (some (mkNotE yleft)) (some (mkNotE yright)) ylist yblock yafter yxt yxd ycom
      | .oror =>
        .mk .andand ytext (some (mkNotE yleft)) (some (mkNotE yright)) ylist yblock yafter yxt yxd ycom
      | .eqeq =>
        if isfloat l.xtype then .mk .not ntext (some l) nright nlist nblock nafter nxt nxd ncom
        else .mk .noteq ytext yleft yright ylist yblock yafter yxt yxd ycom
      | .noteq =>
        if isfloat l.xtype then .mk .not ntext (some l) nright nlist nblock nafter nxt nxd ncom
        else .mk .eqeq ytext yleft yright ylist yblock yafter yxt yxd ycom
      | .lt =>
        if isfloat l.xtype then .mk .not ntext (some l) nright nlist nblock nafter nxt nxd ncom
        else .mk .gteq ytext yleft yright ylist yblock yafter yxt yxd ycom
      | .lteq =>
        if isfloat l.xtype then .mk .not ntext (some l) nright nlist nblock nafter nxt nxd ncom
        else .mk .gt ytext yleft yright ylist yblock yafter yxt yxd ycom
      | .gt =>
        if isfloat l.xtype then .mk .not ntext (some l) nright nlist nblock nafter nxt nxd ncom
        else .mk .lteq ytext yleft yright ylist yblock yafter yxt yxd ycom
      | .gteq =>
        if isfloat l.xtype then .mk .not ntext (some l) nright nlist nblock nafter nxt nxd ncom
        else .mk .lt ytext yleft yright ylist yblock yafter yxt yxd ycom
      | _ => .mk .not ntext (some l) nright nlist nblock nafter nxt nxd ncom
  | x => x

mutual
/-- `simplifyBool`'s post-order traversal over expressions: children
first, then the `!`-inversion callback at the node. -/
def simplifyBoolExpr : Expr → Expr
  | .mk op text left right list block after xtype xdecl com =>
    simplifyNot (.mk op text (simplifyBoolOExpr left) (simplifyBoolOExpr right)
      (simplifyBoolList list) (simplifyBoolStmts block) (simplifyBoolStmts after)
      xtype xdecl com)

def simplifyBoolOExpr : Option Expr → Option Expr
  | some e => some (simplifyBoolExpr e)
  | none => none

def simplifyBoolList : List Expr → List Expr
  | [] => []
  | e :: es => simplifyBoolExpr e :: simplifyBoolList es

def simplifyBoolStmt : Stmt → Stmt
  | .mk op pre expr post body els block labels text decl com =>
    .mk op (simplifyBoolOExpr pre) (simplifyBoolOExpr expr) (simplifyBoolOExpr post)
      (simplifyBoolOStmt body) (simplifyBoolOStmt els) (simplifyBoolStmts block)
      (simplifyBoolLabels labels) text (simplifyBoolODecl decl) com

def simplifyBoolOStmt : Option Stmt → Option Stmt
  | some s => some (simplifyBoolStmt s)
  | none => none

def simplifyBoolStmts : List Stmt → List Stmt
  | [] => []
  | s :: ss => simplifyBoolStmt s :: simplifyBoolStmts ss

def simplifyBoolDecl : Decl → Decl
  | .mk id name storage typ init body =>
    .mk id name storage typ (simplifyBoolOInit init) (simplifyBoolOStmt body)

def simplifyBoolODecl : Option Decl → Option Decl
  | some d => some (simplifyBoolDecl d)
  | none => none

def simplifyBoolInit : Init → Init
  | .mk expr braced => .mk (simplifyBoolOExpr expr) (simplifyBoolInits braced)

def simplifyBoolOInit : Option Init → Option Init
  | some i => some (simplifyBoolInit i)
  | none => none

def simplifyBoolInits : List Init → List Init
  | [] => []
  | i :: is => simplifyBoolInit i :: simplifyBoolInits is

def simplifyBoolLabel : Label → Label
  | .mk op name expr => .mk op name (simplifyBoolOExpr expr)

def simplifyBoolLabels : List Label → List Label
  | [] => []
  | l :: ls => simplifyBoolLabel l :: simplifyBoolLabels ls
end

/-- A bare name-leaf expression (all children empty). -/
def nameLeaf (text : String) (xt : Option CType) (xd : Option Decl) (com : Comments) : Expr :=
  .mk .name text none none [] [] [] xt xd com

/-- `copyExpr`: shallow copy of the node with its SyntaxInfo (comments)
cleared; the children are shared. -/
def copyExpr : Expr → Expr
  | .mk op text left right list block after xtype xdecl _ =>
    .mk op text left right list block after xtype xdecl Comments.empty

/-- `copyStmt`: shallow copy with SyntaxInfo cleared and Labels dropped. -/
def copyStmt : Stmt → Stmt
  | .mk op pre expr post body els block _ text decl _ =>
    .mk op pre expr post body els block [] text decl Comments.empty

/-- `needFixBool`: an expression already usable as a Go condition needs no
`!= 0` wrapping: the comparison and logical operators, a `SideEffectFunc`
marker of type `bool`, and parenthesized forms thereof. -/
def needFixBool : Expr → Bool
  | .mk .sideEffectFunc text _ _ _ _ _ _ _ _ => !(text = "bool")
  | .mk .eqeq _ _ _ _ _ _ _ _ _ => false
  | .mk .not _ _ _ _ _ _ _ _ _ => false
  | .mk .noteq _ _ _ _ _ _ _ _ _ => false
  | .mk .lt _ _ _ _ _ _ _ _ _ => false
  | .mk .lteq _ _ _ _ _ _ _ _ _ => false
  | .mk .gt _ _ _ _ _ _ _ _ _ => false
  | .mk .gteq _ _ _ _ _ _ _ _ _ => false
  | .mk .andand _ _ _ _ _ _ _ _ _ => false
  | .mk .oror _ _ _ _ _ _ _ _ _ => false
  | .mk .paren _ (some l) _ _ _ _ _ _ _ => needFixBool l
  | _ => true

/-- The pointer test of `fixBool`: the (paren-stripped) expression is a
`Name` whose declaration is known and has pointer type
(`old.Op == Name && old.XDecl != nil && old.XDecl.Type != nil &&
old.XDecl.Type.Kind == Ptr`). -/
def pointerName (e : Expr) : Bool :=
  e.op = ExprOp.name &&
  (match e.xdecl with
   | some d =>
     match d.typ with
     | some t => t.kind = TypeKind.ptr
     | none => false
   | none => false)

/-- `fixBool`: wrap a non-boolean condition as `<expr> != 0`
(`<expr> != nil` for a pointer-typed name), stripping one layer of
parentheses from the copied operand.  The mutation sets only Op, Left and
Right; all other fields of the node are kept.  (A `Paren` node with a nil
Left would crash the Go original; the model keeps the node.) -/
def fixBool (x : Expr) : Expr :=
  if needFixBool x then
    match x with
    | .mk op text left right list block after xtype xdecl com =>
      let old0 := copyExpr (.mk op text left right list block after xtype xdecl com)
      let old := if old0.op = ExprOp.paren then old0.left.getD old0 else old0
      let cmp : String := if pointerName old then "nil" else "0"
      .mk .noteq text (some old)
        (some (.mk .name cmp none none [] [] [] none none Comments.empty))
        list block after xtype xdecl com
  else x

mutual
/-- The second `Preorder` pass of `rewriteSyntax`: apply `fixBool` to the
operands of `!`, `&&`, `||` and to the conditions of `if`/`for`
statements, visiting every node of the tree.  The pre-order
wrap-then-descend of the Go walker is expressed as descend-then-wrap:
the wrap only adds a `NotEq` node above the condition and a fresh name
leaf (which the callback never alters), so the two orders coincide. -/
def fixPassExpr : Expr → Expr
  | .mk op text left right list block after xtype xdecl com =>
    match op with
    | .andand =>
      .mk op text (fixPassCond left) (fixPassCond right) (fixPassList list)
        (fixPassStmts block) (fixPassStmts after) xtype xdecl com
    | .oror =>
      .mk op text (fixPassCond left) (fixPassCond right) (fixPassList list)
        (fixPassStmts block) (fixPassStmts after) xtype xdecl com
    | .not =>
      .mk op text (fixPassCond left) (fixPassOExpr right) (fixPassList list)
        (fixPassStmts block) (fixPassStmts after) xtype xdecl com
    | _ =>
      .mk op text (fixPassOExpr left) (fixPassOExpr right) (fixPassList list)
        (fixPassStmts block) (fixPassStmts after) xtype xdecl com

/-- A condition position: the walker's `fixBool` applied on top of the
recursive visit. -/
def fixPassCond : Option Expr → Option Expr
  | some e => some (fixBool (fixPassExpr e))
  | none => none

def fixPassOExpr : Option Expr → Option Expr
  | some e => some (fixPassExpr e)
  | none => none

def fixPassList : List Expr → List Expr
  | [] => []
  | e :: es => fixPassExpr e :: fixPassList es

def fixPassStmt : Stmt → Stmt
  | .mk op pre expr post body els block labels text decl com =>
    match op with
    | .sIf =>
      .mk op (fixPassOExpr pre) (fixPassCond expr) (fixPassOExpr post)
        (fixPassOStmt body) (fixPassOStmt els) (fixPassStmts block)
        (fixPassLabels labels) text (fixPassODecl decl) com
    | .sFor =>
      .mk op (fixPassOExpr pre) (fixPassCond expr) (fixPassOExpr post)
        (fixPassOStmt body) (fixPassOStmt els) (fixPassStmts block)
        (fixPassLabels labels) text (fixPassODecl decl) com
    | _ =>
      .mk op (fixPassOExpr pre) (fixPassOExpr expr) (fixPassOExpr post)
        (fixPassOStmt body) (fixPassOStmt els) (fixPassStmts block)
        (fixPassLabels labels) text (fixPassODecl decl) com

def fixPassOStmt : Option Stmt → Option Stmt
  | some s => some (fixPassStmt s)
  | none => none

def fixPassStmts : List Stmt → List Stmt
  | [] => []
  | s :: ss => fixPassStmt s :: fixPassStmts ss

def fixPassDecl : Decl → Decl
  | .mk id name storage typ init body =>
    .mk id name storage typ (fixPassOInit init) (fixPassOStmt body)

def fixPassODecl : Option Decl → Option Decl
  | some d => some (fixPassDecl d)
  | none => none

def fixPassInit : Init → Init
  | .mk expr braced => .mk (fixPassOExpr expr) (fixPassInits braced)

def fixPassOInit : Option Init → Option Init
  | some i => some (fixPassInit i)
  | none => none

def fixPassInits : List Init → List Init
  | [] => []
  | i :: is => fixPassInit i :: fixPassInits is

def fixPassLabel : Label → Label
  | .mk op name expr => .mk op name (fixPassOExpr expr)

def fixPassLabels : List Label → List Label
  | [] => []
  | l :: ls => fixPassLabel l :: fixPassLabels ls
end

/-- Claim-side predicate: the literal list of boolean-shaped operators
from the specification — `==`, `!=`, `<`, `<=`, `>`, `>=`, `&&`, `||`,
`!`, or a `SideEffectFunc` marker of type `bool` — tested at the top
operator only (no look-through of parentheses). -/
def topBoolShaped (e : Expr) : Bool :=
  isCmpOp e.op || e.op = ExprOp.andand || e.op = ExprOp.oror || e.op = ExprOp.not ||
  (e.op = ExprOp.sideEffectFunc && e.text = "bool")

/-- Claim-side predicate (amended): boolean-shaped, where parentheses are
looked through. -/
def boolShaped : Expr → Bool
  | .mk .paren _ (some l) _ _ _ _ _ _ _ => boolShaped l
  | e => topBoolShaped e

/-- Claim-side description of what a condition becomes under the boolean
fixup: a boolean-shaped condition is only visited recursively; any other
condition `c` is replaced by `c' != 0` — or `c' != nil` when the operand
is a pointer-typed name — where `c'` is the visited condition with one
layer of parentheses stripped and its comments detached. -/
def condResult (c : Expr) : Expr :=
  if boolShaped c then fixPassExpr c
  else
    let e := fixPassExpr c
    let old := if e.op = ExprOp.paren then e.left.getD (copyExpr e) else copyExpr e
    .mk .noteq e.text (some old)
      (some (.mk .name (if pointerName old then "nil" else "0") none none [] [] [] none none
        Comments.empty))
      e.list e.block e.after e.xtype e.xdecl e.comments

/-- The mode bits of the side-effect extractor: `sideStmt` (expression
used as a whole statement) and `sideNoAfter` (no fix-up statements may be
emitted after the host statement).  Go's bit operations
`mode&^sideStmt|sideNoAfter` etc. become field updates. -/
structure Mode where
  sideStmt : Bool
  sideNoAfter : Bool
  deriving DecidableEq, Repr

/-- The assignment and compound-assignment operators, as enumerated by
the `case cc.Eq, cc.AddEq, …` clauses of `doSideEffects`. -/
def isAssignOp (op : ExprOp) : Bool :=
  op = ExprOp.eq ∨ op = ExprOp.addeq ∨ op = ExprOp.subeq ∨ op = ExprOp.muleq ∨
  op = ExprOp.diveq ∨ op = ExprOp.modeq ∨ op = ExprOp.xoreq ∨ op = ExprOp.oreq ∨
  op = ExprOp.andeq ∨ op = ExprOp.lsheq ∨ op = ExprOp.rsheq

/-- `&cc.Stmt{Op: cc.StmtExpr, Expr: e}`. -/
def mkStmtExpr (e : Expr) : Stmt :=
  .mk .stmtExpr none (some e) none none none [] [] "" none Comments.empty

/-- `&cc.Stmt{Op: cc.StmtDecl, Decl: d}`. -/
def mkStmtDecl (d : Decl) : Stmt :=
  .mk .stmtDecl none none none none none [] [] "" (some d) Comments.empty

/-- `fixMerge(dst, src)`: `*dst = *src`, with the comment lists of both
nodes merged (dst's first). -/
def fixMerge (dst src : Expr) : Expr :=
  match src with
  | .mk op text l r list block after xt xd scom =>
    .mk op text l r list block after xt xd
      ⟨dst.comments.before ++ scom.before, dst.comments.after ++ scom.after,
       dst.comments.suffix ++ scom.suffix⟩

/-- `forceCheap`: a stub in the source (`// TODO`), returning its
argument unchanged. -/
def forceCheap (_ : List Stmt) (x : Expr) : Expr := x

/-- The fresh temporary declaration
`&cc.Decl{Name: fmt.Sprintf("tmp%d", <-tmpGen), Type: t}`;
the counter value doubles as the fresh pointer identity. -/
def mkTmpDecl (n : Nat) (t : Option CType) : Decl :=
  .mk n ("tmp" ++ toString n) 0 t none none

/-- `&cc.Expr{Op: cc.Name, Text: d.Name, XDecl: d}`. -/
def tmpNameExpr (d : Decl) : Expr :=
  .mk .name d.name none none [] [] [] none (some d) Comments.empty

/-- `x.Op = op` as a functional update. -/
def setOp (e : Expr) (op : ExprOp) : Expr :=
  match e with
  | .mk _ text left right list block after xt xd com =>
    .mk op text left right list block after xt xd com

/-- The assignment/compound-assignment extraction of `doSideEffects`:
emit the full assignment into `before`; the residue is the left-hand
side (`fixMerge(x, x.Left)`). -/
def extractAssign (x1 : Expr) (bef aft : List Stmt) (n1 : Nat) :
    Expr × List Stmt × List Stmt × Nat :=
  match x1 with
  | .mk op1 text1 left1 right1 list1 block1 after1 xt1 xd1 com1 =>
    let x2 := Expr.mk op1 text1 (Option.map (forceCheap bef) left1) right1 list1
      block1 after1 xt1 xd1 com1
    let old := copyExpr x2
    let res := match x2.left with
      | some l => fixMerge x2 l
      | none => x2
    (res, bef ++ [mkStmtExpr old], aft, n1)

/-- The `PreInc`/`PreDec` extraction: the copy is flipped to the
post-operator and emitted into `before`; the residue is the lvalue. -/
def extractPre (x1 : Expr) (bef aft : List Stmt) (n1 : Nat) :
    Expr × List Stmt × List Stmt × Nat :=
  match x1 with
  | .mk op1 text1 left1 right1 list1 block1 after1 xt1 xd1 com1 =>
    let x2 := Expr.mk op1 text1 (Option.map (forceCheap bef) left1) right1 list1
      block1 after1 xt1 xd1 com1
    let old := copyExpr x2
    let old := if old.op = ExprOp.preinc then setOp old ExprOp.postinc
      else setOp old ExprOp.postdec
    let res := match x2.left with
      | some l => fixMerge x2 l
      | none => x2
    (res, bef ++ [mkStmtExpr old], aft, n1)

/-- The `PostInc`/`PostDec` extraction: with `sideNoAfter`, allocate a
temporary `t`, emit `t := x; x++` into `before`, residue `t`; otherwise
emit the post-operation into `after`, residue the lvalue. -/
def extractPost (x1 : Expr) (mode : Mode) (bef aft : List Stmt) (n1 : Nat) :
    Expr × List Stmt × List Stmt × Nat :=
  match x1 with
  | .mk op1 text1 left1 right1 list1 block1 after1 xt1 xd1 com1 =>
    let x2 := Expr.mk op1 text1 (Option.map (forceCheap bef) left1) right1 list1
      block1 after1 xt1 xd1 com1
    if mode.sideNoAfter then
      -- not allowed to generate fixups afterward: allocate a temporary
      match x2.left with
      | some lv =>
        let d := mkTmpDecl n1 lv.xtype
        let eq := Expr.mk .colonEq "" (some (tmpNameExpr d)) (some lv) [] [] [] none none
          Comments.empty
        let old := copyExpr lv
        (Expr.mk .name d.name none right1 list1 block1 after1 xt1 (some d) com1,
         bef ++ [mkStmtExpr eq,
           mkStmtExpr (.mk op1 "" (some old) none [] [] [] none none Comments.empty)],
         aft, n1 + 1)
      | none => (x2, bef, aft, n1)
    else
      let old := copyExpr x2
      let res := match x2.left with
        | some l => fixMerge x2 l
        | none => x2
      (res, bef, aft ++ [mkStmtExpr old], n1)

/-- The `Cond` extraction: `c ? y : z` becomes a fresh temporary with a
preceding `var tmp; if c { tmp = y } else { tmp = z }`. -/
def extractCond (x1 : Expr) (bef aft : List Stmt) (n1 : Nat) :
    Expr × List Stmt × List Stmt × Nat :=
  match x1 with
  | .mk _ _ left1 right1 list1 block1 after1 xt1 _ com1 =>
    match list1 with
    | c1' :: c2' :: c3' :: _ =>
      let d := mkTmpDecl n1 xt1
      let ifStmt := Stmt.mk .sIf none (some c1') none
        (some (mkStmtExpr (.mk .eq "" (some (tmpNameExpr d)) (some c2') [] [] [] none none
          Comments.empty)))
        (some (mkStmtExpr (.mk .eq "" (some (tmpNameExpr d)) (some c3') [] [] [] none none
          Comments.empty)))
        [] [] "" none Comments.empty
      (Expr.mk .name d.name left1 right1 [] block1 after1 xt1 (some d) com1,
       bef ++ [mkStmtDecl d, ifStmt], aft, n1 + 1)
    | _ => (x1, bef, aft, n1)

/-- Phases two and three of `doSideEffects` on a node whose children are
already processed: the statement-context early returns
(`mode&sideStmt != 0`), then the per-operator extraction switch. -/
def extractNode (op : ExprOp) (x1 : Expr) (mode : Mode) (bef aft : List Stmt) (n1 : Nat) :
    Expr × List Stmt × List Stmt × Nat :=
  -- expression as statement: leave x++ etc. in place
  if mode.sideStmt ∧ op = ExprOp.preinc then
    (setOp x1 ExprOp.postinc, bef, aft, n1)
  else if mode.sideStmt ∧ op = ExprOp.predec then
    (setOp x1 ExprOp.postdec, bef, aft, n1)
  else if mode.sideStmt ∧
      (op = ExprOp.postinc ∨ op = ExprOp.postdec ∨ isAssignOp op ∨ op = ExprOp.call) then
    (x1, bef, aft, n1)
  else if isAssignOp op then
    extractAssign x1 bef aft n1
  else if op = ExprOp.preinc ∨ op = ExprOp.predec then
    extractPre x1 bef aft n1
  else if op = ExprOp.postinc ∨ op = ExprOp.postdec then
    extractPost x1 mode bef aft n1
  else if op = ExprOp.cond then
    extractCond x1 bef aft n1
  else
    (x1, bef, aft, n1)

mutual
/-- `doSideEffects`: recurse into children first (with the mode
adjustments of the `Cond`/`AndAnd`/`OrOr`/`Comma`/default cases), then
apply `extractNode`.  The Go accumulators `*before`/`*after` become
returned lists (concatenated in execution order) and the `tmpGen`
channel becomes the threaded counter `n`. -/
def doSideEffects (x : Expr) (mode : Mode) (n : Nat) :
    Expr × List Stmt × List Stmt × Nat :=
  match x with
  | .mk op text left right list block after xt xd com =>
    let (x1, bef, aft, n1) :=
      if op = ExprOp.cond then
        match list with
        | c1 :: c2 :: c3 :: rest =>
          let (c1', b1, a1, m1) := doSideEffects c1 ⟨false, true⟩ n
          let (c2', m2) := checkNoSideEffects c2 ⟨false, false⟩ "unknown" m1
          let (c3', m3) := checkNoSideEffects c3 ⟨false, false⟩ "unknown" m2
          (Expr.mk op text left right (c1' :: c2' :: c3' :: rest) block after xt xd com,
           b1, a1, m3)
        | _ => (Expr.mk op text left right list block after xt xd com, [], [], n)
      else if op = ExprOp.andand ∨ op = ExprOp.oror then
        let (l', bl, al, m1) := doSideEffectsOpt left ⟨false, true⟩ n
        let (r', m2) := checkNoSideEffectsOpt right ⟨false, false⟩ "bool" m1
        (Expr.mk op text l' r' list block after xt xd com, bl, al, m2)
      else if op = ExprOp.comma then
        let (leftover, bc, ac, m1) := doSideEffectsComma list mode n
        (Expr.mk op text left right leftover block after xt xd com, bc, ac, m1)
      else
        let mode' : Mode := ⟨false, mode.sideNoAfter⟩
        let (l', bl, al, m1) := doSideEffectsOpt left mode' n
        let (r', br, ar, m2) := doSideEffectsOpt right mode' m1
        let (list', blst, alst, m3) := doSideEffectsList list mode' m2
        (Expr.mk op text l' r' list' block after xt xd com,
         bl ++ br ++ blst, al ++ ar ++ alst, m3)
    extractNode op x1 mode bef aft n1

def doSideEffectsOpt (x : Option Expr) (mode : Mode) (n : Nat) :
    Option Expr × List Stmt × List Stmt × Nat :=
  match x with
  | some e =>
    let (e', b, a, n') := doSideEffects e mode n
    (some e', b, a, n')
  | none => (none, [], [], n)

def doSideEffectsList (xs : List Expr) (mode : Mode) (n : Nat) :
    List Expr × List Stmt × List Stmt × Nat :=
  match xs with
  | [] => ([], [], [], n)
  | e :: es =>
    let (e', b, a, n') := doSideEffects e mode n
    let (es', bs, as_, n2) := doSideEffectsList es mode n'
    (e' :: es', b ++ bs, a ++ as_, n2)

/-- The `Comma` loop: every non-final element gets `sideStmt`, all get
`sideNoAfter`; statement-legal residues are lifted into `before`, the
rest stay in the comma list. -/
def doSideEffectsComma (xs : List Expr) (mode : Mode) (n : Nat) :
    List Expr × List Stmt × List Stmt × Nat :=
  match xs with
  | [] => ([], [], [], n)
  | y :: ys =>
    let m : Mode := ⟨mode.sideStmt || !ys.isEmpty, true⟩
    let (y', b, a, n') := doSideEffects y m n
    let (leftover, bs, as_, n2) := doSideEffectsComma ys mode n'
    if y'.op = ExprOp.postinc ∨ y'.op = ExprOp.postdec ∨ isAssignOp y'.op then
      (leftover, b ++ [mkStmtExpr y'] ++ bs, a ++ as_, n2)
    else
      (y' :: leftover, b ++ bs, a ++ as_, n2)

/-- `checkNoSideEffects`: run the extractor on a conditionally-evaluated
operand with fresh lists; if anything was extracted, wrap the residue in
a `SideEffectFunc` marker carrying the extracted statements. -/
def checkNoSideEffects (x : Expr) (mode : Mode) (typ : String) (n : Nat) : Expr × Nat :=
  let (x', bef, aft, n') := doSideEffects x mode n
  if bef.length + aft.length > 0 then
    match x' with
    | .mk _ _ _ right1 list1 _ _ xt1 xd1 com1 =>
      (Expr.mk .sideEffectFunc typ (some (copyExpr x')) right1 list1 bef aft xt1 xd1 com1, n')
  else (x', n')

def checkNoSideEffectsOpt (x : Option Expr) (mode : Mode) (typ : String) (n : Nat) :
    Option Expr × Nat :=
  match x with
  | some e =>
    let (e', n') := checkNoSideEffects e mode typ n
    (some e', n')
  | none => (none, n)
end

/-- `stmt.Op = op` as a functional update. -/
def setStmtOp (s : Stmt) (op : StmtOp) : Stmt :=
  match s with
  | .mk _ pre expr post body els block labels text decl com =>
    .mk op pre expr post body els block labels text decl com

/-- `stmt.Labels = labels` as a functional update. -/
def setStmtLabels (s : Stmt) (labels : List Label) : Stmt :=
  match s with
  | .mk op pre expr post body els block _ text decl com =>
    .mk op pre expr post body els block labels text decl com

/-- `inlineBlockNoBrace` (decls.go): splice each `BlockNoBrace` child of a
`Block` into the block after the (emptied) marker statement. -/
def inlineBNBList : List Stmt → List Stmt
  | [] => []
  | s :: rest =>
    if s.op = StmtOp.blockNoBrace then
      (match s with
       | .mk _ pre expr post body els _ labels text decl com =>
         Stmt.mk .empty pre expr post body els [] labels text decl com) ::
      s.block ++ inlineBNBList rest
    else s :: inlineBNBList rest

def inlineBlockNoBrace (x : Stmt) : Stmt :=
  if x.op = StmtOp.block then
    match x with
    | .mk op pre expr post body els block labels text decl com =>
      .mk op pre expr post body els (inlineBNBList block) labels text decl com
  else x

/-- `fallsThrough` (rewrite-c file): a statement falls through unless it
is `break`, `continue`, `return`, `goto`, a call to `sysfatal`/`fatal`,
or the literal expression `fallthrough`. -/
def fallsThrough (x : Stmt) : Bool :=
  match x.op with
  | .sBreak | .sContinue | .sReturn | .sGoto => false
  | .stmtExpr =>
    match x.expr with
    | some e =>
      if e.op = ExprOp.call &&
          (match e.left with
           | some l => l.op = ExprOp.name && (l.text = "sysfatal" || l.text = "fatal")
           | none => false) then false
      else if e.op = ExprOp.name && e.text = "fallthrough" then false
      else true
    | none => true
  | _ => true

/-- The label triage of `rewriteSwitch`: name labels, case labels, and
the (last) default label of a statement. -/
def splitLabels : List Label → List Label × List Label × Option Label
  | [] => ([], [], none)
  | l :: ls =>
    let (ns, cs, d) := splitLabels ls
    if l.op = LabelOp.labelName then (l :: ns, cs, d)
    else if l.op = LabelOp.lDefault then (ns, cs, d.orElse (fun _ => some l))
    else (ns, l :: cs, d)

/-- The case labels of a statement, default last (as printed). -/
def casesOf (s : Stmt) : List Label :=
  let (_, cs, d) := splitLabels s.labels
  match d with
  | some dd => cs ++ [dd]
  | none => cs

/-- Whether a statement starts a case group. -/
def hasCases (s : Stmt) : Bool := !(casesOf s).isEmpty

/-- Put case labels before name labels, so a `goto` to the name lands at
the same place as the case dispatch. -/
def relabelStmt (s : Stmt) : Stmt :=
  let (ns, cs, d) := splitLabels s.labels
  let cs := match d with
    | some dd => cs ++ [dd]
    | none => cs
  if ¬cs.isEmpty ∧ ¬ns.isEmpty then setStmtLabels s (cs ++ ns) else s

/-- `&cc.Stmt{Op: Fallthrough}`. -/
def fallthroughStmt : Stmt :=
  .mk .fallthrough none none none none none [] [] "" none Comments.empty

/-- Scan a reversed statement list past `Empty` statements for the last
non-empty statement (the `for i >= 0 && out[i].Op == cc.Empty { i-- }`
loop). -/
def lastNonEmptyRev : List Stmt → Option Stmt
  | [] => none
  | s :: rest => if s.op = StmtOp.empty then lastNonEmptyRev rest else some s

/-- On a reversed statement list, turn the last non-empty statement into
`Empty` if it is an unlabeled `break`. -/
def dropBreakRev : List Stmt → List Stmt
  | [] => []
  | s :: rest =>
    if s.op = StmtOp.empty then s :: dropBreakRev rest
    else if s.op = StmtOp.sBreak && s.labels.isEmpty then setStmtOp s .empty :: rest
    else s :: rest

/-- The between-groups adjustment of `rewriteSwitch`: drop a trailing
unlabeled `break` of the previous group, else append `fallthrough` if
its last statement falls through. -/
def fixBetween (out : List Stmt) : List Stmt :=
  match lastNonEmptyRev out.reverse with
  | none => out
  | some s =>
    if s.op = StmtOp.sBreak && s.labels.isEmpty then (dropBreakRev out.reverse).reverse
    else if fallsThrough s then out ++ [fallthroughStmt]
    else out

/-- The final adjustment of `rewriteSwitch`: drop a trailing unlabeled
`break` at the end of the switch. -/
def dropTrailingBreak (out : List Stmt) : List Stmt :=
  match lastNonEmptyRev out.reverse with
  | none => out
  | some s =>
    if s.op = StmtOp.sBreak && s.labels.isEmpty then (dropBreakRev out.reverse).reverse
    else out

/-- The statement loop of `rewriteSwitch`: the case labels are computed
from the statement's original labels, the labels are reordered, and
between consecutive case groups the previous group's tail is adjusted. -/
def switchLoop (stmts : List Stmt) (out : List Stmt) (haveCase : Bool) : List Stmt :=
  match stmts with
  | [] => out
  | s :: rest =>
    let hc := hasCases s
    let s := relabelStmt s
    if hc then
      let out := if haveCase then fixBetween out else out
      switchLoop rest (out ++ [s]) true
    else
      switchLoop rest (out ++ [s]) haveCase

/-- The body rewrite of `rewriteSwitch`: the statement loop followed by
removal of a final unlabeled `break`. -/
def rewriteSwitchBody (stmts : List Stmt) : List Stmt :=
  dropTrailingBreak (switchLoop stmts [] false)

def setStmtPre (s : Stmt) (pre : Option Expr) : Stmt :=
  match s with
  | .mk op _ expr post body els block labels text decl com =>
    .mk op pre expr post body els block labels text decl com

def setStmtExpr (s : Stmt) (expr : Option Expr) : Stmt :=
  match s with
  | .mk op pre _ post body els block labels text decl com =>
    .mk op pre expr post body els block labels text decl com

def setStmtBody (s : Stmt) (body : Option Stmt) : Stmt :=
  match s with
  | .mk op pre expr post _ els block labels text decl com =>
    .mk op pre expr post body els block labels text decl com

def setStmtEls (s : Stmt) (els : Option Stmt) : Stmt :=
  match s with
  | .mk op pre expr post body _ block labels text decl com =>
    .mk op pre expr post body els block labels text decl com

def setStmtBlock (s : Stmt) (block : List Stmt) : Stmt :=
  match s with
  | .mk op pre expr post body els _ labels text decl com =>
    .mk op pre expr post body els block labels text decl com

mutual
/-- The use relation of `moveFuncDecls`: the identity-keyed
`uses[usesVar{x, d}]` map, built by a leaf rule (`Name` expressions with
`XDecl` set) and per-field propagation (`copyUses`), is equivalent — for
the declarations the slide queries — to "the subtree of `x` contains a
`Name` expression whose `XDecl` is declaration `did`", following exactly
the fields `copyUses` copies from. -/
def usesExpr (e : Expr) (did : Nat) : Bool :=
  match e with
  | .mk op _ left right list block after _ xd _ =>
    (op = ExprOp.name &&
      (match xd with
       | some d => d.id == did
       | none => false)) ||
    usesOExpr left did || usesOExpr right did || usesExprList list did ||
    usesStmtList block did || usesStmtList after did

def usesOExpr (e : Option Expr) (did : Nat) : Bool :=
  match e with
  | some e => usesExpr e did
  | none => false

def usesExprList (es : List Expr) (did : Nat) : Bool :=
  match es with
  | [] => false
  | e :: es => usesExpr e did || usesExprList es did

def usesStmt (s : Stmt) (did : Nat) : Bool :=
  match s with
  | .mk _ pre expr post body els block _ _ decl _ =>
    usesOExpr pre did || usesOExpr expr did || usesOExpr post did ||
    usesOStmt body did || usesOStmt els did || usesStmtList block did ||
    usesODecl decl did

def usesOStmt (s : Option Stmt) (did : Nat) : Bool :=
  match s with
  | some s => usesStmt s did
  | none => false

def usesStmtList (ss : List Stmt) (did : Nat) : Bool :=
  match ss with
  | [] => false
  | s :: ss => usesStmt s did || usesStmtList ss did

def usesDecl (d : Decl) (did : Nat) : Bool :=
  match d with
  | .mk _ _ _ _ init _ => usesOInit init did

def usesODecl (d : Option Decl) (did : Nat) : Bool :=
  match d with
  | some d => usesDecl d did
  | none => false

def usesInit (i : Init) (did : Nat) : Bool :=
  match i with
  | .mk expr braced => usesOExpr expr did || usesInitList braced did

def usesOInit (i : Option Init) (did : Nat) : Bool :=
  match i with
  | some i => usesInit i did
  | none => false

def usesInitList (is : List Init) (did : Nat) : Bool :=
  match is with
  | [] => false
  | i :: is => usesInit i did || usesInitList is did
end

/-- `anyUses`: some statement of the list uses the declaration. -/
def anyUses (list : List Stmt) (did : Nat) : Bool :=
  match list with
  | [] => false
  | x :: xs => usesStmt x did || anyUses xs did

/-- `addToBlock`: prepend the declaration inside a block (creating a
block when the target is not one). -/
def addToBlock (x decl : Stmt) : Stmt :=
  if x.op = StmtOp.block ∨ x.op = StmtOp.blockNoBrace then
    setStmtBlock x (decl :: x.block)
  else
    .mk .block none none none none none [decl, x] [] "" none Comments.empty

/-- `addToIf`: push the declaration into the arm(s) of an `if` that use
it, recursing along `else if` chains; fails (second component `false`)
when the condition or init uses the declaration. -/
def addToIf (x d : Stmt) : Stmt × Bool :=
  match x with
  | .mk op pre expr post body els block labels text decl com =>
    match d.decl with
    | none => (.mk op pre expr post body els block labels text decl com, true)
    | some dd =>
      if usesOExpr pre dd.id || usesOExpr expr dd.id then
        (.mk op pre expr post body els block labels text decl com, false)
      else
        let body := match body with
          | some b => if usesStmt b dd.id then some (addToBlock b d) else some b
          | none => none
        let els := match els with
          | some e =>
            if usesStmt e dd.id then
              if e.op = StmtOp.sIf then
                let (e', ok) := addToIf e d
                if ok then some e' else some (addToBlock e d)
              else some (addToBlock e d)
            else some e
          | none => none
        (.mk op pre expr post body els block labels text decl com, true)

/-- The `s` is an assignment `d.name = e` test of the slide loop:
`stmt.Op == StmtExpr && stmt.Expr.Op == Eq && stmt.Expr.Left.Op == Name
&& stmt.Expr.Left.XDecl == d.Decl`. -/
def colonEqAssignTo (stmt : Stmt) (did : Nat) : Bool :=
  stmt.op = StmtOp.stmtExpr &&
  (match stmt.expr with
   | some e =>
     e.op = ExprOp.eq &&
     (match e.left with
      | some l =>
        l.op = ExprOp.name &&
        (match l.xdecl with
         | some dx => dx.id == did
         | none => false)
      | none => false)
   | none => false)

/-- `stmt.Expr.Op = op`. -/
def setStmtExprOp (stmt : Stmt) (op : ExprOp) : Stmt :=
  setStmtExpr stmt (stmt.expr.map (fun e => setOp e op))

/-- The `stmt.Pre` is `d.name = e` test of the `For` sub-case. -/
def forPreAssignTo (stmt : Stmt) (did : Nat) : Bool :=
  match stmt.pre with
  | some p =>
    p.op = ExprOp.eq &&
    (match p.left with
     | some l =>
       l.op = ExprOp.name &&
       (match l.xdecl with
        | some dx => dx.id == did
        | none => false)
     | none => false)
  | none => false

/-- `stmt.Pre.Op = op`. -/
def setStmtPreOp (stmt : Stmt) (op : ExprOp) : Stmt :=
  setStmtPre stmt (stmt.pre.map (fun e => setOp e op))

/-- `stmt.Body = addToBlock(stmt.Body, d)` of the `For` sub-case. -/
def forBodyAdd (stmt d : Stmt) : Stmt :=
  match stmt.body with
  | some b => setStmtBody stmt (some (addToBlock b d))
  | none => stmt

/-- The inner pending-declaration loop of `moveFuncDecls`, run once per
block statement: returns the declarations still pending, the
declarations emitted before the statement, and the (possibly mutated)
statement. -/
def slidePending (pending : List Stmt) (stmt : Stmt) (rest : List Stmt) :
    List Stmt × List Stmt × Stmt :=
  match pending with
  | [] => ([], [], stmt)
  | d :: ps =>
    match d.decl with
    | none =>
      let r := slidePending ps stmt rest
      (d :: r.1, r.2.1, r.2.2)
    | some dd =>
      if ¬usesStmt stmt dd.id then
        let r := slidePending ps stmt rest
        (d :: r.1, r.2.1, r.2.2)
      else if colonEqAssignTo stmt dd.id then
        slidePending ps (setStmtExprOp stmt ExprOp.colonEq) rest
      else if ¬anyUses rest dd.id ∧ stmt.op = StmtOp.sIf ∧ (addToIf stmt d).2 = true then
        slidePending ps (addToIf stmt d).1 rest
      else if ¬anyUses rest dd.id ∧ stmt.op = StmtOp.block then
        slidePending ps (addToBlock stmt d) rest
      else if ¬anyUses rest dd.id ∧ stmt.op = StmtOp.sFor ∧
          ¬usesOExpr stmt.pre dd.id ∧ ¬usesOExpr stmt.expr dd.id ∧
          ¬usesOExpr stmt.post dd.id then
        -- only used in the body, uninitialized on entry: fresh copy each time
        slidePending ps (forBodyAdd stmt d) rest
      else if ¬anyUses rest dd.id ∧ stmt.op = StmtOp.sFor ∧ forPreAssignTo stmt dd.id then
        -- loop variable
        slidePending ps (setStmtPreOp stmt ExprOp.colonEq) rest
      else
        let r := slidePending ps stmt rest
        (r.1, d :: r.2.1, r.2.2)

/-- Remove a leading blank line (empty comment) from the statement that
follows a picked-up declaration. -/
def trimBlank (rest : List Stmt) : List Stmt :=
  match rest with
  | [] => []
  | s :: more =>
    (match s with
     | .mk op pre expr post body els block labels text decl com =>
       match com.before with
       | "" :: tl => Stmt.mk op pre expr post body els block labels text decl
           ⟨tl, com.after, com.suffix⟩
       | _ => s) :: more

/-- The statement loop of the declaration slide over one block: emit
required pending declarations before each statement, rewrite `d.name = e`
to `:=`, push single-use declarations into `if`/block/`for` statements,
and pick up uninitialized declarations; pending declarations never
required again are dropped. -/
def slideStmts (stmts : List Stmt) (pending : List Stmt) : List Stmt :=
  match stmts with
  | [] => []
  | stmt :: rest =>
    let (pendout, emitted, stmt') := slidePending pending stmt rest
    if stmt'.op = StmtOp.stmtDecl &&
        (match stmt'.decl with
         | some dcl => dcl.init.isNone
         | none => false) then
      emitted ++ slideStmts (trimBlank rest) (pendout ++ [stmt'])
    else
      emitted ++ stmt' :: slideStmts rest pendout
termination_by stmts.length
decreasing_by
  all_goals simp_wf
  all_goals
    (first
      | omega
      | (have h : ∀ l : List Stmt, (trimBlank l).length = l.length := by
           intro l
           cases l <;> simp [trimBlank]
         rw [h]
         omega))

mutual
/-- The flattening `Postorder` of `moveFuncDecls`: children first, then
`inlineBlockNoBrace` at each statement. -/
def flattenStmt : Stmt → Stmt
  | .mk op pre expr post body els block labels text decl com =>
    inlineBlockNoBrace (.mk op (flattenOExpr pre) (flattenOExpr expr) (flattenOExpr post)
      (flattenOStmt body) (flattenOStmt els) (flattenStmts block) labels text
      (flattenODecl decl) com)

def flattenOStmt : Option Stmt → Option Stmt
  | some s => some (flattenStmt s)
  | none => none

def flattenStmts : List Stmt → List Stmt
  | [] => []
  | s :: ss => flattenStmt s :: flattenStmts ss

def flattenExpr : Expr → Expr
  | .mk op text left right list block after xt xd com =>
    .mk op text (flattenOExpr left) (flattenOExpr right) (flattenExprs list)
      (flattenStmts block) (flattenStmts after) xt xd com

def flattenOExpr : Option Expr → Option Expr
  | some e => some (flattenExpr e)
  | none => none

def flattenExprs : List Expr → List Expr
  | [] => []
  | e :: es => flattenExpr e :: flattenExprs es

def flattenDecl : Decl → Decl
  | .mk id name storage typ init body =>
    .mk id name storage typ (flattenOInit init) (flattenOStmt body)

def flattenODecl : Option Decl → Option Decl
  | some d => some (flattenDecl d)
  | none => none

def flattenInit : Init → Init
  | .mk expr braced => .mk (flattenOExpr expr) (flattenInits braced)

def flattenOInit : Option Init → Option Init
  | some i => some (flattenInit i)
  | none => none

def flattenInits : List Init → List Init
  | [] => []
  | i :: is => flattenInit i :: flattenInits is
end

mutual
/-- The declaration-sliding `Preorder` of `moveFuncDecls`: at each
`Block`/`BlockNoBrace` statement, run the slide over its child list, then
descend (also into statements the slide created).  The Go walker's
recursion depth is bounded by the tree; the `fuel` argument makes that
bound explicit (callers pass a bound larger than the tree size). -/
def slideWalkStmt (fuel : Nat) (s : Stmt) : Stmt :=
  match fuel with
  | 0 => s
  | fuel + 1 =>
    let s := if s.op = StmtOp.block ∨ s.op = StmtOp.blockNoBrace then
        setStmtBlock s (slideStmts s.block [])
      else s
    match s with
    | .mk op pre expr post body els block labels text decl com =>
      .mk op (slideWalkOExpr fuel pre) (slideWalkOExpr fuel expr)
        (slideWalkOExpr fuel post) (slideWalkOStmt fuel body) (slideWalkOStmt fuel els)
        (slideWalkStmts fuel block) labels text (slideWalkODecl fuel decl) com

def slideWalkOStmt (fuel : Nat) (s : Option Stmt) : Option Stmt :=
  match s with
  | some s => some (slideWalkStmt fuel s)
  | none => none

def slideWalkStmts (fuel : Nat) (ss : List Stmt) : List Stmt :=
  match ss with
  | [] => []
  | s :: rest => slideWalkStmt fuel s :: slideWalkStmts fuel rest

def slideWalkExpr (fuel : Nat) (e : Expr) : Expr :=
  match fuel with
  | 0 => e
  | fuel + 1 =>
    match e with
    | .mk op text left right list block after xt xd com =>
      .mk op text (slideWalkOExpr fuel left) (slideWalkOExpr fuel right)
        (slideWalkExprs fuel list) (slideWalkStmts fuel block)
        (slideWalkStmts fuel after) xt xd com

def slideWalkOExpr (fuel : Nat) (e : Option Expr) : Option Expr :=
  match e with
  | some e => some (slideWalkExpr fuel e)
  | none => none

def slideWalkExprs (fuel : Nat) (es : List Expr) : List Expr :=
  match es with
  | [] => []
  | e :: rest => slideWalkExpr fuel e :: slideWalkExprs fuel rest

def slideWalkDecl (fuel : Nat) (d : Decl) : Decl :=
  match fuel with
  | 0 => d
  | fuel + 1 =>
    match d with
    | .mk id name storage typ init body =>
      .mk id name storage typ (slideWalkOInit fuel init) (slideWalkOStmt fuel body)

def slideWalkODecl (fuel : Nat) (d : Option Decl) : Option Decl :=
  match d with
  | some d => some (slideWalkDecl fuel d)
  | none => none

def slideWalkInit (fuel : Nat) (i : Init) : Init :=
  match fuel with
  | 0 => i
  | fuel + 1 =>
    match i with
    | .mk expr braced => .mk (slideWalkOExpr fuel expr) (slideWalkInits fuel braced)

def slideWalkOInit (fuel : Nat) (i : Option Init) : Option Init :=
  match i with
  | some i => some (slideWalkInit fuel i)
  | none => none

def slideWalkInits (fuel : Nat) (is : List Init) : List Init :=
  match is with
  | [] => []
  | i :: rest => slideWalkInit fuel i :: slideWalkInits fuel rest
end

mutual
/-- A computable node count of a statement tree, used to bound the
recursion depth of the sliding walk. -/
def stmtSize : Stmt → Nat
  | .mk _ pre expr post body els block _ _ decl _ =>
    1 + oExprSize pre + oExprSize expr + oExprSize post + oStmtSize body +
      oStmtSize els + stmtListSize block + oDeclSize decl

def oStmtSize : Option Stmt → Nat
  | some s => stmtSize s
  | none => 0

def stmtListSize : List Stmt → Nat
  | [] => 0
  | s :: ss => stmtSize s + stmtListSize ss

def exprSize : Expr → Nat
  | .mk _ _ left right list block after _ _ _ =>
    1 + oExprSize left + oExprSize right + exprListSize list +
      stmtListSize block + stmtListSize after

def oExprSize : Option Expr → Nat
  | some e => exprSize e
  | none => 0

def exprListSize : List Expr → Nat
  | [] => 0
  | e :: es => exprSize e + exprListSize es

def declSize : Decl → Nat
  | .mk _ _ _ _ init body => 1 + oInitSize init + oStmtSize body

def oDeclSize : Option Decl → Nat
  | some d => declSize d
  | none => 0

def initSize : Init → Nat
  | .mk expr braced => 1 + oExprSize expr + initListSize braced

def oInitSize : Option Init → Nat
  | some i => initSize i
  | none => 0

def initListSize : List Init → Nat
  | [] => 0
  | i :: is => initSize i + initListSize is
end

/-- `moveFuncDecls`: flatten `BlockNoBrace` markers, then slide the
declarations of the function body toward their uses. -/
def moveFuncDecls (fndecl : Decl) : Decl :=
  match fndecl with
  | .mk id name storage typ init body =>
    match body with
    | some b =>
      let b := flattenStmt b
      .mk id name storage typ init (some (slideWalkStmt (stmtSize b + 1) b))
    | none => fndecl

/-- The guard of `moveDecls`:
`d.Type != nil && d.Type.Kind == cc.Func && d.Body != nil`. -/
def isFuncDef (d : Decl) : Bool :=
  match d.typ, d.body with
  | some t, some _ => t.kind = TypeKind.func
  | _, _ => false

/-- `moveDecls`: run `moveFuncDecls` on every function definition of the
top-level declaration list. -/
def moveDecls (progDecls : List Decl) : List Decl :=
  progDecls.map (fun d => if isFuncDef d then moveFuncDecls d else d)

/-- Claim-side description of the between-groups adjustment applied to
the earlier group's statements `pre ++ t :: emps`, where `t` is the last
non-empty statement: an unlabeled `break` is dropped (emptied);
otherwise, when `t` falls through, an explicit `fallthrough` is inserted
before the next case group. -/
def groupFixMid (pre : List Stmt) (t : Stmt) (emps : List Stmt) : List Stmt :=
  if t.op = StmtOp.sBreak && t.labels.isEmpty then pre ++ setStmtOp t .empty :: emps
  else if fallsThrough t then pre ++ t :: emps ++ [fallthroughStmt]
  else pre ++ t :: emps

/-- Claim-side description of the end-of-switch adjustment of the final
group: only a trailing unlabeled `break` is dropped. -/
def groupFixEnd (pre : List Stmt) (t : Stmt) (emps : List Stmt) : List Stmt :=
  if t.op = StmtOp.sBreak && t.labels.isEmpty then pre ++ setStmtOp t .empty :: emps
  else pre ++ t :: emps

/-- `rewriteSwitch`: inline `BlockNoBrace` children of the body, then
reshape the case groups. -/
def rewriteSwitch (swt : Stmt) : Stmt :=
  match swt.body with
  | some b =>
    let b := inlineBlockNoBrace b
    let out := rewriteSwitchBody b.block
    (match swt with
     | .mk op pre expr post _ els block labels text decl com =>
       Stmt.mk op pre expr post
         (some (match b with
           | .mk bop bpre bexpr bpost bbody bels _ blabels btext bdecl bcom =>
             Stmt.mk bop bpre bexpr bpost bbody bels out blabels btext bdecl bcom))
         els block labels text decl com)
  | none => swt

/-- A parenthesized comparison `(x == y)`: boolean-shaped through the
parentheses, but its top operator is none of the operators the claim
lists. -/
def parenCmp : Expr :=
  .mk .paren "" (some (.mk .eqeq "" (some (nameLeaf "x" none none Comments.empty))
      (some (nameLeaf "y" none none Comments.empty)) [] [] [] none none Comments.empty))
    none [] [] [] none none Comments.empty

/-- An `if` statement whose condition is `(x == y)`. -/
def parenCmpIf : Stmt :=
  .mk .sIf none (some parenCmp) none none none [] [] "" none Comments.empty

/-- Concrete float-typed operands for the simplifyBool counterexample:
the comparison `a < b` where both operands are float64-typed but the
comparison node itself carries no XType (the tool is syntactic, so
comparison nodes are not assigned types). -/
def floatCmpLt : Expr :=
  .mk .lt "" (some (nameLeaf "a" (some ⟨.float64⟩) none Comments.empty))
    (some (nameLeaf "b" (some ⟨.float64⟩) none Comments.empty))
    [] [] [] none none Comments.empty

/-- The negation `!(a < b)` of `floatCmpLt`. -/
def notFloatCmpLt : Expr :=
  .mk .not "" (some floatCmpLt) none [] [] [] none none Comments.empty

end CC

namespace Rewrite

/-- Modelled from the spec (§4.7 and the Go AST library contract, §6):
the Go expression AST seen by the pattern-rewrite engine.  Position
fields always match and `*ast.Object`/scope pointers are treated as
absent by the engine, so they are omitted; the `Sel` field of a selector
is an identifier matched by name. -/
inductive GoExpr where
  | ident (name : String)
  | basicLit (value : String)
  | callExpr (fn : GoExpr) (args : List GoExpr) (hasEllipsis : Bool)
  | selectorExpr (x : GoExpr) (sel : String)
  | binaryExpr (op : String) (x : GoExpr) (y : GoExpr)
  | parenExpr (x : GoExpr)
  | unaryExpr (op : String) (x : GoExpr)
  | starExpr (x : GoExpr)

/-- Modelled from Go's `unicode.IsLower`, restricted to the ASCII
letters exercised here. -/
def isLowerRune (c : Char) : Bool := c.isLower

/-- `isWildcard`: `rune, size := utf8.DecodeRuneInString(s);
return size == len(s) && unicode.IsLower(rune)` — the string is exactly
one rune and that rune is lower-case. -/
def isWildcard (s : String) : Bool :=
  match s.data with
  | [c] => isLowerRune c
  | _ => false

/-- The wildcard environment `m`: name-to-subtree bindings. -/
abbrev Bindings := List (String × GoExpr)

mutual
/-- `match` with `m == nil`: pattern equals value structurally, with
identifiers compared by name only (the only data our identifiers
carry). -/
def matchNil : GoExpr → GoExpr → Bool
  | .ident n1, .ident n2 => n1 == n2
  | .basicLit v1, .basicLit v2 => v1 == v2
  | .callExpr f1 a1 e1, .callExpr f2 a2 e2 =>
    e1 == e2 && matchNil f1 f2 && matchNilList a1 a2
  | .selectorExpr x1 s1, .selectorExpr x2 s2 => matchNil x1 x2 && s1 == s2
  | .binaryExpr o1 x1 y1, .binaryExpr o2 x2 y2 =>
    o1 == o2 && matchNil x1 x2 && matchNil y1 y2
  | .parenExpr x1, .parenExpr x2 => matchNil x1 x2
  | .unaryExpr o1 x1, .unaryExpr o2 x2 => o1 == o2 && matchNil x1 x2
  | .starExpr x1, .starExpr x2 => matchNil x1 x2
  | _, _ => false

def matchNilList : List GoExpr → List GoExpr → Bool
  | [], [] => true
  | e1 :: l1, e2 :: l2 => matchNil e1 e2 && matchNilList l1 l2
  | _, _ => false
end

mutual
/-- `match` with a wildcard environment: a lower-case single-rune
identifier in the pattern matches any expression, recording (or
re-checking, via structural equality) its binding; call expressions must
agree on the variadic marker; selector `Sel` fields are compared
literally (name equality, no wildcard lookup); otherwise structural
recursion.  (All values of the model are valid non-nil expressions, so
the reflect-level validity guards are vacuous.) -/
def matchE (m : Bindings) : GoExpr → GoExpr → Option Bindings
  | .ident name, val =>
    if isWildcard name then
      match List.lookup name m with
      | some old => if matchNil old val then some m else none
      | none => some ((name, val) :: m)
    else
      match val with
      | .ident n2 => if name == n2 then some m else none
      | _ => none
  | .basicLit v1, .basicLit v2 => if v1 == v2 then some m else none
  | .callExpr f1 a1 e1, .callExpr f2 a2 e2 =>
    if e1 == e2 then
      match matchE m f1 f2 with
      | some m1 => matchEList m1 a1 a2
      | none => none
    else none
  | .selectorExpr x1 s1, .selectorExpr x2 s2 =>
    if s1 == s2 then matchE m x1 x2 else none
  | .binaryExpr o1 x1 y1, .binaryExpr o2 x2 y2 =>
    if o1 == o2 then
      match matchE m x1 x2 with
      | some m1 => matchE m1 y1 y2
      | none => none
    else none
  | .parenExpr x1, .parenExpr x2 => matchE m x1 x2
  | .unaryExpr o1 x1, .unaryExpr o2 x2 =>
    if o1 == o2 then matchE m x1 x2 else none
  | .starExpr x1, .starExpr x2 => matchE m x1 x2
  | _, _ => none

def matchEList (m : Bindings) : List GoExpr → List GoExpr → Option Bindings
  | [], [] => some m
  | e1 :: l1, e2 :: l2 =>
    match matchE m e1 e2 with
    | some m1 => matchEList m1 l1 l2
    | none => none
  | _, _ => none
end

end Rewrite

namespace Driver

/-- The three diagnostic prompts the parse-loop driver scans for. -/
def prompts : List String := ["syntax error near ", "invalid function definition for ",
  "likely type near "]

/-- `strings.Index` over character lists: offset of the first occurrence
of `needle` in `hay`, if any. -/
def charIndex (hay needle : List Char) : Option Nat :=
  match hay with
  | [] => if needle.isEmpty then some 0 else none
  | c :: rest =>
    if needle.isPrefixOf (c :: rest) then some 0
    else (charIndex rest needle).map (· + 1)

/-- `word := line[i+len(p):]` for the first occurrence of prompt `p` in
`line`. -/
def extractWord (line p : String) : Option String :=
  (charIndex line.data p.data).map (fun i => String.mk (line.data.drop (i + p.data.length)))

/-- Scan one diagnostic line: the three prompts are tried in order and
the scan breaks at the first prompt present in the line. -/
def scanLine (line : String) : Option String :=
  match extractWord line "syntax error near " with
  | some w => some w
  | none =>
    match extractWord line "invalid function definition for " with
    | some w => some w
    | none => extractWord line "likely type near "

/-- `strings.Split(err, "\\n")` over character lists. -/
def splitChars (l : List Char) : List (List Char) :=
  match l with
  | [] => [[]]
  | c :: rest =>
    let r := splitChars rest
    if c = '\n' then [] :: r
    else
      match r with
      | h :: t => (c :: h) :: t
      | [] => [[c]]

/-- The diagnostic text split into lines. -/
def splitLines (s : String) : List String := (splitChars s.data).map String.mk

/-- Scan the diagnostic lines, collecting each extracted word not
already presumed to be a type name; `haveType` grows as words are
found. -/
def scanNewTypes : List String → List String → List String
  | [], _ => []
  | line :: rest, haveT =>
    match scanLine line with
    | some w =>
      if haveT.contains w then scanNewTypes rest haveT
      else w :: scanNewTypes rest (w :: haveT)
    | none => scanNewTypes rest haveT

/-- The three possible outcomes of one iteration of the parse loop. -/
inductive StepResult (α : Type) where
  | success (p : α)
  | fatal (err : String)
  | next (types : List String) (haveType : List String)
  deriving Repr

/-- One iteration of the parse loop of `do`: parse with the current
presumed type names; on error, scan the diagnostic for new type names;
no new name means the error is fatal.  `read` stands for `cc.Read` on
the fixed input file (external parser, §6 contract). -/
def doStep {α : Type} (read : List String → Except String α)
    (types haveType : List String) : StepResult α :=
  match read types with
  | .ok p => .success p
  | .error err =>
    let newWords := scanNewTypes (splitLines err) haveType
    if newWords.isEmpty then .fatal err
    else .next (types ++ newWords) (haveType ++ newWords)

/-- The parse loop itself, with an explicit iteration bound. -/
def doLoop {α : Type} (read : List String → Except String α) :
    Nat → List String → List String → Option (Except String α)
  | 0, _, _ => none
  | fuel + 1, types, haveType =>
    match doStep read types haveType with
    | .success p => some (.ok p)
    | .fatal e => some (.error e)
    | .next t h => doLoop read fuel t h

/-- A concrete parser oracle: fails with a `syntax error near Rasp`
diagnostic until `Rasp` is presumed to be a type. -/
def read0 : List String → Except String Unit := fun ts =>
  if ts.contains "Rasp" then .ok () else .error "x.c:1: syntax error near Rasp"

end Driver

namespace Rename

/-!
The renamer (`renameDecls`) mutates `*cc.Decl` objects shared between
the top-level declaration list and the `XDecl` back-references of uses.
This sharing is modelled with an explicit store: declarations live in
`declStore` (indexed by id), types in `typeStore`, and syntax trees
reference declarations by id, so a rename through one alias is seen by
all aliases — exactly the Go pointer semantics.
-/

/-- Modelled from the spec (§3): the storage-class bits of `internal/cc`
read by the renamer (`cc.Typedef`, `cc.Static`). -/
def TypedefBit : Nat := 1

def StaticBit : Nat := 2

/-- Modelled from the spec (§3): the fields of `cc.Type` read by the
renamer: Kind, Tag, TypeDecl, Decls (enumerators). -/
structure TypeData where
  kind : CC.TypeKind
  tag : String
  typeDecl : Option Nat
  decls : List Nat
  deriving Repr

mutual
/-- `cc.Expr` as seen by the renamer: Op, Text, children, and the
`XDecl` back-reference as a declaration id. -/
inductive RExpr where
  | mk (op : CC.ExprOp) (text : String) (left : Option RExpr) (right : Option RExpr)
      (list : List RExpr) (block : List RStmt) (after : List RStmt)
      (xdecl : Option Nat) : RExpr

/-- `cc.Stmt` as seen by the renamer. -/
inductive RStmt where
  | mk (op : CC.StmtOp) (pre : Option RExpr) (expr : Option RExpr) (post : Option RExpr)
      (body : Option RStmt) (els : Option RStmt) (block : List RStmt)
      (labels : List RLabel) (text : String) (decl : Option Nat) : RStmt

/-- `cc.Label` as seen by the renamer. -/
inductive RLabel where
  | mk (op : CC.LabelOp) (name : String) (expr : Option RExpr) : RLabel

/-- `cc.Init` as seen by the renamer. -/
inductive RInit where
  | mk (expr : Option RExpr) (braced : List RInit) : RInit
end

/-- The fields of a `*cc.Decl` heap object read or written by the
renamer: Name, Storage, Type, Init, Body, Blank, and the base file of
its source span. -/
structure DeclData where
  name : String
  storage : Nat
  typ : Option Nat
  init : Option RInit
  body : Option RStmt
  blank : Bool
  file : String

instance : Inhabited DeclData := ⟨⟨"", 0, none, none, none, false, ""⟩⟩

instance : Inhabited TypeData := ⟨⟨CC.TypeKind.void, "", none, []⟩⟩

/-- A program for the renamer: the ordered top-level declaration ids and
the two object stores. -/
structure Prog where
  decls : List Nat
  declStore : List DeclData
  typeStore : List TypeData

def getD (st : List DeclData) (i : Nat) : DeclData := st.getD i default

def getT (ts : List TypeData) (i : Nat) : TypeData := ts.getD i default

def updAt {α : Type} (l : List α) (i : Nat) (f : α → α) : List α :=
  match l, i with
  | [], _ => []
  | x :: rest, 0 => f x :: rest
  | x :: rest, n + 1 => x :: updAt rest n f

/-- The `goKeyword` set of rename.go. -/
def goKeyword : List String :=
  ["chan", "defer", "fallthrough", "func", "go", "import", "interface", "iota",
   "map", "package", "range", "select", "type", "var",
   "fmt", "path", "rune", "true", "false"]

/-- Append `_` to a name colliding with a Go keyword (the `_` is last so
the name can still be upper-cased for export). -/
def escName (s : String) : String := if goKeyword.contains s then s ++ "_" else s

mutual
/-- The keyword-escape `Preorder` of `renameDecls` over expressions:
`Dot`, `Arrow` and `Name` texts colliding with a keyword gain `_`. -/
def escExpr : RExpr → RExpr
  | .mk op text left right list block after xd =>
    let text := if op = CC.ExprOp.dot ∨ op = CC.ExprOp.arrow ∨ op = CC.ExprOp.name then
        escName text
      else text
    .mk op text (escOExpr left) (escOExpr right) (escExprList list)
      (escStmtList block) (escStmtList after) xd

def escOExpr : Option RExpr → Option RExpr
  | some e => some (escExpr e)
  | none => none

def escExprList : List RExpr → List RExpr
  | [] => []
  | e :: es => escExpr e :: escExprList es

/-- Statements: label names, and the target of a `goto`, are escaped. -/
def escStmt : RStmt → RStmt
  | .mk op pre expr post body els block labels text decl =>
    let text := if op = CC.StmtOp.sGoto then escName text else text
    .mk op (escOExpr pre) (escOExpr expr) (escOExpr post) (escOStmt body) (escOStmt els)
      (escStmtList block) (escLabelList labels) text decl

def escOStmt : Option RStmt → Option RStmt
  | some s => some (escStmt s)
  | none => none

def escStmtList : List RStmt → List RStmt
  | [] => []
  | s :: ss => escStmt s :: escStmtList ss

def escLabel : RLabel → RLabel
  | .mk op name expr => .mk op (escName name) (escOExpr expr)

def escLabelList : List RLabel → List RLabel
  | [] => []
  | l :: ls => escLabel l :: escLabelList ls

def escInit : RInit → RInit
  | .mk expr braced => .mk (escOExpr expr) (escInitList braced)

def escOInit : Option RInit → Option RInit
  | some i => some (escInit i)
  | none => none

def escInitList : List RInit → List RInit
  | [] => []
  | i :: is => escInit i :: escInitList is
end

/-- Keyword escape of one declaration object: its name, and the trees it
owns. -/
def escDeclData (d : DeclData) : DeclData :=
  { d with name := escName d.name, init := escOInit d.init, body := escOStmt d.body }

/-- Pass one of `renameDecls`: escape keywords everywhere (every `Decl`
object of the program, and the label/goto/selector/name texts of its
trees; the walk visits each object once, so the pass is a map over the
store). -/
def keywordEscape (p : Prog) : Prog :=
  { p with declStore := p.declStore.map escDeclData }

/-- The `typedefs` map of `renameDecls`, keyed by type object (possibly
nil): built left to right, later entries overwriting (newest first in
the list). -/
def buildTypedefs (st : List DeclData) :
    List Nat → List (Option Nat × Nat) → List (Option Nat × Nat)
  | [], acc => acc
  | i :: rest, acc =>
    let d := getD st i
    if d.storage &&& TypedefBit ≠ 0 then
      buildTypedefs st rest ((d.typ, i) :: acc)
    else buildTypedefs st rest acc

/-- Pass two of `renameDecls`: build the list of declared top-level
names, merging anonymous declarations with their typedefs, naming tagged
structs, and flattening enum members. -/
def buildDecls (typedefs : List (Option Nat × Nat)) :
    List Nat → List DeclData → List TypeData → List Nat →
    List DeclData × List TypeData × List Nat
  | [], st, ts, out => (st, ts, out)
  | i :: rest, st, ts, out =>
    let d := getD st i
    if d.blank then
      buildDecls typedefs rest st ts (out ++ [i])
    else if d.name = "" then
      match List.lookup d.typ typedefs with
      | some td =>
        -- print the definition here, not at the typedef
        let st := updAt st td (fun x => { x with blank := true })
        let st := updAt st i (fun x =>
          { x with name := (getD st td).name, storage := x.storage ||| TypedefBit })
        buildDecls typedefs rest st ts (out ++ [i])
      | none =>
        match d.typ with
        | some t =>
          match (getT ts t).kind with
          | CC.TypeKind.structKind =>
            let st :=
              if (getT ts t).tag ≠ "" then
                updAt st i (fun x => { x with name := (getT ts t).tag, storage := TypedefBit })
              else
                updAt st i (fun x => { x with blank := true })
            let ts :=
              if (getT ts t).typeDecl = none then
                updAt ts t (fun x => { x with typeDecl := some i })
              else ts
            buildDecls typedefs rest st ts (out ++ [i])
          | CC.TypeKind.enum =>
            let st := updAt st i (fun x => { x with blank := true })
            buildDecls typedefs rest st ts (out ++ [i] ++ (getT ts t).decls)
          | _ => buildDecls typedefs rest st ts out
        | none => buildDecls typedefs rest st ts out
    else
      let ts :=
        if d.storage &&& TypedefBit ≠ 0 then
          match d.typ with
          | some t =>
            if (getT ts t).typeDecl = none then
              updAt ts t (fun x => { x with typeDecl := some i })
            else ts
          | none => ts
        else ts
      buildDecls typedefs rest st ts (out ++ [i])

/-- The multiplicity of a non-blank top-level name (the `count` map of
pass three, computed once before the rename loop). -/
def countNames (st : List DeclData) (ids : List Nat) (s : String) : Nat :=
  (ids.filter (fun i => !(getD st i).blank && (getD st i).name == s)).length

/-- `strings.Split` on a character. -/
def splitOnChar (ch : Char) (l : List Char) : List (List Char) :=
  match l with
  | [] => [[]]
  | c :: rest =>
    let r := splitOnChar ch rest
    if c = ch then [] :: r
    else
      match r with
      | h :: t => (c :: h) :: t
      | [] => [[c]]

/-- `filepath.Base` followed by truncation at the first `.`. -/
def fileBase (f : String) : String :=
  String.mk (((splitOnChar '/' f.data).getLastD []).takeWhile (fun c => c ≠ '.'))

def RStmt.sop : RStmt → CC.StmtOp
  | .mk op _ _ _ _ _ _ _ _ _ => op

def RStmt.sblock : RStmt → List RStmt
  | .mk _ _ _ _ _ _ block _ _ _ => block

def RStmt.sdecl : RStmt → Option Nat
  | .mk _ _ _ _ _ _ _ _ _ decl => decl

/-- The static-local prefixing of pass three: every direct `StmtDecl`
statement of the function body block whose declaration has static
storage gains the enclosing function's (current) name and `_` as a
prefix.  The function name is re-read from the store at each statement,
as the Go loop reads it through the pointer. -/
def renameStatics (fid : Nat) : List RStmt → List DeclData → List DeclData
  | [], st => st
  | s :: rest, st =>
    let st :=
      if s.sop = CC.StmtOp.stmtDecl then
        match s.sdecl with
        | some di =>
          if (getD st di).storage &&& StaticBit ≠ 0 then
            updAt st di (fun x => { x with name := (getD st fid).name ++ "_" ++ x.name })
          else st
        | none => st
      else st
    renameStatics fid rest st

/-- The direct statement list of a declaration's body block (empty when
there is no body). -/
def blockOfBody (st : List DeclData) (i : Nat) : List RStmt :=
  match (getD st i).body with
  | some b => b.sblock
  | none => []

/-- The function-body scan of one rename-loop iteration: when the
declaration is a function definition, prefix its direct static
locals. -/
def renameStepScan (ts : List TypeData) (i : Nat) (st : List DeclData) : List DeclData :=
  match (getD st i).typ with
  | some t =>
    if (getT ts t).kind = CC.TypeKind.func then
      match (getD st i).body with
      | some b => renameStatics i b.sblock st
      | none => st
    else st
  | none => st

/-- One iteration of the rename loop of pass three: suffix a conflicting
name with `_<filebase>`, then prefix the function's direct static
locals. -/
def renameStep (count : String → Nat) (ts : List TypeData) (st : List DeclData)
    (i : Nat) : List DeclData :=
  renameStepScan ts i
    (if count (getD st i).name > 1 then
      updAt st i (fun x => { x with name := x.name ++ "_" ++ fileBase x.file })
    else st)

/-- Pass three of `renameDecls`: count conflicts once, then rename
static and conflicting names. -/
def renameLoop (count : String → Nat) (ts : List TypeData) :
    List Nat → List DeclData → List DeclData
  | [], st => st
  | i :: rest, st => renameLoop count ts rest (renameStep count ts st i)

/-- `renameDecls`: keyword escape, build the top-level list, then rename
static and conflicting names.  Returns the updated program and the new
list of top-level declaration ids. -/
def renameDecls (p : Prog) : Prog × List Nat :=
  let p := keywordEscape p
  let typedefs := buildTypedefs p.declStore p.decls []
  let (st, ts, decls) := buildDecls typedefs p.decls p.declStore p.typeStore []
  let count := countNames st decls
  let st := renameLoop count ts decls st
  ({ p with declStore := st, typeStore := ts }, decls)

/-- The intermediate state of `renameDecls` after the keyword escape and
the list-building pass, just before the rename loop: declaration store,
type store, and top-level declaration list. -/
def stage2 (p : Prog) : List DeclData × List TypeData × List Nat :=
  let p1 := keywordEscape p
  buildDecls (buildTypedefs p1.declStore p1.decls []) p1.decls p1.declStore p1.typeStore []

mutual
/-- Back-reference integrity (the claim's invariant): every `Name`
expression whose `XDecl` is set has `XDecl.Name` equal to its `Text`. -/
def backExpr (st : List DeclData) : RExpr → Bool
  | .mk op text left right list block after xd =>
    (match op, xd with
     | CC.ExprOp.name, some i => (getD st i).name == text
     | _, _ => true) &&
    backOExpr st left && backOExpr st right && backExprList st list &&
    backStmtList st block && backStmtList st after

def backOExpr (st : List DeclData) : Option RExpr → Bool
  | some e => backExpr st e
  | none => true

def backExprList (st : List DeclData) : List RExpr → Bool
  | [] => true
  | e :: es => backExpr st e && backExprList st es

def backStmt (st : List DeclData) : RStmt → Bool
  | .mk _ pre expr post body els block labels _ _ =>
    backOExpr st pre && backOExpr st expr && backOExpr st post && backOStmt st body &&
    backOStmt st els && backStmtList st block && backLabelList st labels

def backOStmt (st : List DeclData) : Option RStmt → Bool
  | some s => backStmt st s
  | none => true

def backStmtList (st : List DeclData) : List RStmt → Bool
  | [] => true
  | s :: ss => backStmt st s && backStmtList st ss

def backLabel (st : List DeclData) : RLabel → Bool
  | .mk _ _ expr => backOExpr st expr

def backLabelList (st : List DeclData) : List RLabel → Bool
  | [] => true
  | l :: ls => backLabel st l && backLabelList st ls

def backInit (st : List DeclData) : RInit → Bool
  | .mk expr braced => backOExpr st expr && backInitList st braced

def backOInit (st : List DeclData) : Option RInit → Bool
  | some i => backInit st i
  | none => true

def backInitList (st : List DeclData) : List RInit → Bool
  | [] => true
  | i :: is => backInit st i && backInitList st is
end

mutual
/-- No `Name` expression with a set `XDecl` has empty `Text` (names come
from the parser, so a resolved use always has a spelled name). -/
def neExpr : RExpr → Bool
  | .mk op text left right list block after xd =>
    (match op, xd with
     | CC.ExprOp.name, some _ => !(text == "")
     | _, _ => true) &&
    neOExpr left && neOExpr right && neExprList list && neStmtList block && neStmtList after

def neOExpr : Option RExpr → Bool
  | some e => neExpr e
  | none => true

def neExprList : List RExpr → Bool
  | [] => true
  | e :: es => neExpr e && neExprList es

def neStmt : RStmt → Bool
  | .mk _ pre expr post body els block labels _ _ =>
    neOExpr pre && neOExpr expr && neOExpr post && neOStmt body && neOStmt els &&
    neStmtList block && neLabelList labels

def neOStmt : Option RStmt → Bool
  | some s => neStmt s
  | none => true

def neStmtList : List RStmt → Bool
  | [] => true
  | s :: ss => neStmt s && neStmtList ss

def neLabel : RLabel → Bool
  | .mk _ _ expr => neOExpr expr

def neLabelList : List RLabel → Bool
  | [] => true
  | l :: ls => neLabel l && neLabelList ls

def neInit : RInit → Bool
  | .mk expr braced => neOExpr expr && neInitList braced

def neOInit : Option RInit → Bool
  | some i => neInit i
  | none => true

def neInitList : List RInit → Bool
  | [] => true
  | i :: is => neInit i && neInitList is
end

/-- Back-reference integrity of one declaration object's trees. -/
def backDeclData (st : List DeclData) (d : DeclData) : Bool :=
  backOInit st d.init && backOStmt st d.body

/-- Back-reference integrity of the whole program: every tree of every
declaration object satisfies the invariant. -/
def backProg (p : Prog) : Bool :=
  p.declStore.all (backDeclData p.declStore)

/-- No empty-text resolved use anywhere in the program. -/
def neDeclData (d : DeclData) : Bool :=
  neOInit d.init && neOStmt d.body

def neProg (p : Prog) : Bool :=
  p.declStore.all neDeclData

/-- Two stores agree on every field except possibly `name` (the rename
loop of pass three only rewrites names). -/
def sameShape (st st' : List DeclData) : Prop :=
  st'.length = st.length ∧
  ∀ j, (getD st' j).storage = (getD st j).storage ∧
    (getD st' j).typ = (getD st j).typ ∧
    (getD st' j).init = (getD st j).init ∧
    (getD st' j).body = (getD st j).body ∧
    (getD st' j).blank = (getD st j).blank ∧
    (getD st' j).file = (getD st j).file

/-- Pass two only renames declarations whose name was empty: every other
name is untouched. -/
def namesStable (st st' : List DeclData) : Prop :=
  ∀ j, (getD st' j).name = (getD st j).name ∨ (getD st j).name = ""

/-- Pass two never modifies the syntax trees owned by declarations, nor
the store's extent. -/
def treesEq (st st' : List DeclData) : Prop :=
  st'.length = st.length ∧
  ∀ j, (getD st' j).init = (getD st j).init ∧ (getD st' j).body = (getD st j).body

/-- A `StmtDecl` statement declaring the store's declaration 1. -/
def sdStmt1 : RStmt := .mk CC.StmtOp.stmtDecl none none none none none [] [] "" (some 1)

/-- A function body whose only statement is an `if` hiding `sdStmt1`
one block deeper: the static local is not a direct child of the body. -/
def nestedBody : RStmt :=
  .mk CC.StmtOp.block none none none none none
    [.mk CC.StmtOp.sIf none none none
      (some (.mk CC.StmtOp.block none none none none none [sdStmt1] [] "" none))
      none [] [] "" none]
    [] "" none

/-- A program with one function `f` whose static local `x` sits inside a
nested block rather than directly in the function body. -/
def nestedStaticProg : Prog :=
  { decls := [0]
    declStore :=
      [⟨"f", 0, some 0, none, some nestedBody, false, "a.c"⟩,
       ⟨"x", StaticBit, none, none, none, false, "a.c"⟩]
    typeStore := [⟨CC.TypeKind.func, "", none, []⟩] }

/-- A function body whose only statement is `sdStmt1` directly. -/
def flatBody : RStmt := .mk CC.StmtOp.block none none none none none [sdStmt1] [] "" none

/-- The declaration store of a program with one function `f` whose
static local `x` is a direct child of the function body. -/
def flatStaticStore : List DeclData :=
  [⟨"f", 0, some 0, none, some flatBody, false, "a.c"⟩,
   ⟨"x", StaticBit, none, none, none, false, "a.c"⟩]

/-- The type store holding the single function type of `flatStaticStore`
and `nestedStaticProg`. -/
def funcTypeStore : List TypeData := [⟨CC.TypeKind.func, "", none, []⟩]

/-- A `Name` use of the store's declaration 0, with matching text. -/
def useDecl0 (txt : String) : RExpr := .mk CC.ExprOp.name txt none none [] [] [] (some 0)

/-- A function body whose only statement evaluates `useDecl0 txt`. -/
def useBody (txt : String) : RStmt :=
  .mk CC.StmtOp.block none none none none none
    [.mk CC.StmtOp.stmtExpr none (some (useDecl0 txt)) none none none [] [] "" none]
    [] "" none

/-- Two top-level declarations both named `v`, from files `a.c` and
`b.c`, plus a function `g` whose body uses the first `v`: the conflict
suffixing of pass three renames the declaration but not the use's
text. -/
def conflictProg : Prog :=
  { decls := [0, 1, 2]
    declStore :=
      [⟨"v", 0, none, none, none, false, "a.c"⟩,
       ⟨"v", 0, none, none, none, false, "b.c"⟩,
       ⟨"g", 0, some 0, none, some (useBody "v"), false, "a.c"⟩]
    typeStore := [⟨CC.TypeKind.func, "", none, []⟩] }

/-- A conflict-free program: a global `g` used by a function `main`. -/
def okProg : Prog :=
  { decls := [0, 1]
    declStore :=
      [⟨"g", 0, none, none, none, false, "a.c"⟩,
       ⟨"main", 0, some 0, none, some (useBody "g"), false, "a.c"⟩]
    typeStore := [⟨CC.TypeKind.func, "", none, []⟩] }

end Rename

-- ===================================================================
-- Theorems
-- ===================================================================

namespace CC

theorem simplifyBoolExpr_nameLeaf (t : String) (xt : Option CType) (xd : Option Decl)
    (com : Comments) : simplifyBoolExpr (nameLeaf t xt xd com) = nameLeaf t xt xd com := by
  rfl

/-- C3 (amended): on a negated comparison `!(a OP b)` (operands already in
simplified form), `simplifyBool` leaves the negation in place exactly when
the XType of the negation's immediate operand — the comparison node itself —
is Float32/Float64; otherwise it drops the `!` and flips the operator.  The
types of the comparison's operands `a` and `b` are not consulted. -/
theorem simplifyBool_not_inversion
    (cop : ExprOp) (ctext : String) (a b : Expr) (cxt : Option CType)
    (cxd : Option Decl) (ccom : Comments)
    (ntext : String) (nxt : Option CType) (nxd : Option Decl) (ncom : Comments)
    (hcop : isCmpOp cop = true)
    (ha : simplifyBoolExpr a = a) (hb : simplifyBoolExpr b = b) :
    simplifyBoolExpr (.mk .not ntext
        (some (.mk cop ctext (some a) (some b) [] [] [] cxt cxd ccom))
        none [] [] [] nxt nxd ncom)
      = if isfloat cxt then
          .mk .not ntext (some (.mk cop ctext (some a) (some b) [] [] [] cxt cxd ccom))
            none [] [] [] nxt nxd ncom
        else
          .mk (flipCmp cop) ctext (some a) (some b) [] [] [] cxt cxd ccom := by
  cases cop <;> simp [isCmpOp] at hcop <;>
    (rw [simplifyBoolExpr]
     simp only [simplifyBoolOExpr, simplifyBoolList, simplifyBoolStmts]
     rw [simplifyBoolExpr]
     simp only [simplifyBoolOExpr, simplifyBoolList, simplifyBoolStmts, ha, hb]
     simp [simplifyNot, stripParens, Expr.xtype, flipCmp])

theorem simplifyBool_not_inversion_witness :
    simplifyBoolExpr (.mk .not ""
        (some (.mk .lt "" (some (nameLeaf "x" (some ⟨.intKind⟩) none Comments.empty))
          (some (nameLeaf "y" (some ⟨.intKind⟩) none Comments.empty)) [] [] [] none none
          Comments.empty))
        none [] [] [] none none Comments.empty)
      = .mk .gteq "" (some (nameLeaf "x" (some ⟨.intKind⟩) none Comments.empty))
          (some (nameLeaf "y" (some ⟨.intKind⟩) none Comments.empty)) [] [] [] none none
          Comments.empty := by
  have h := simplifyBool_not_inversion .lt "" (nameLeaf "x" (some ⟨.intKind⟩) none Comments.empty)
    (nameLeaf "y" (some ⟨.intKind⟩) none Comments.empty) none none Comments.empty
    "" none none Comments.empty (by decide)
    (simplifyBoolExpr_nameLeaf _ _ _ _) (simplifyBoolExpr_nameLeaf _ _ _ _)
  simpa [isfloat, flipCmp] using h

/-- C3 (counterexample): `!(a < b)` where both operands `a`, `b` are
float64-typed.  The claim says the negation must be left in place, but
`simplifyBool` flips the comparison to `a >= b` because its float guard
reads the XType of the negation's operand (the comparison node, here
untyped), not the types of `a` and `b`. -/
theorem simplifyBool_float_counterexample :
    isfloat (nameLeaf "a" (some ⟨.float64⟩) none Comments.empty).xtype = true ∧
    isfloat (nameLeaf "b" (some ⟨.float64⟩) none Comments.empty).xtype = true ∧
    simplifyBoolExpr notFloatCmpLt
      = .mk .gteq "" (some (nameLeaf "a" (some ⟨.float64⟩) none Comments.empty))
          (some (nameLeaf "b" (some ⟨.float64⟩) none Comments.empty))
          [] [] [] none none Comments.empty ∧
    (simplifyBoolExpr notFloatCmpLt).op ≠ ExprOp.not := by
  have h : simplifyBoolExpr notFloatCmpLt
      = .mk .gteq "" (some (nameLeaf "a" (some ⟨.float64⟩) none Comments.empty))
          (some (nameLeaf "b" (some ⟨.float64⟩) none Comments.empty))
          [] [] [] none none Comments.empty := by
    simp only [notFloatCmpLt, floatCmpLt]
    rw [simplifyBoolExpr]
    simp only [simplifyBoolOExpr, simplifyBoolList, simplifyBoolStmts]
    rw [simplifyBoolExpr]
    simp only [simplifyBoolOExpr, simplifyBoolList, simplifyBoolStmts,
      simplifyBoolExpr_nameLeaf]
    simp [simplifyNot, stripParens, Expr.xtype, isfloat]
  refine ⟨rfl, rfl, h, ?_⟩
  rw [h]
  simp [Expr.op]

theorem needFixBool_fixPassExpr (c : Expr) : needFixBool (fixPassExpr c) = needFixBool c := by
  match c with
  | .mk op text left right list block after xt xd com =>
    cases op <;>
      first
        | (cases left with
           | none => simp [fixPassExpr, fixPassOExpr, needFixBool]
           | some l =>
             have ih := needFixBool_fixPassExpr l
             simp [fixPassExpr, fixPassOExpr, needFixBool, ih])
        | simp [fixPassExpr, fixPassOExpr, fixPassCond, needFixBool]

theorem boolShaped_eq_not_needFixBool (c : Expr) : boolShaped c = !needFixBool c := by
  match c with
  | .mk op text left right list block after xt xd com =>
    cases op <;>
      first
        | (cases left with
           | none => simp [boolShaped, topBoolShaped, needFixBool, isCmpOp, Expr.op, Expr.text]
           | some l =>
             have ih := boolShaped_eq_not_needFixBool l
             simp [boolShaped, topBoolShaped, needFixBool, isCmpOp, Expr.op, Expr.text, ih])
        | simp [boolShaped, topBoolShaped, needFixBool, isCmpOp, Expr.op, Expr.text]

theorem fixBool_fixPass_eq_condResult (c : Expr) :
    fixBool (fixPassExpr c) = condResult c := by
  by_cases hb : boolShaped c = true
  · have hn : needFixBool (fixPassExpr c) = false := by
      rw [needFixBool_fixPassExpr]
      have := boolShaped_eq_not_needFixBool c
      rw [hb] at this
      simpa using this.symm
    rw [condResult, if_pos hb]
    simp [fixBool, hn]
  · have hb' : boolShaped c = false := by simpa using hb
    have hn : needFixBool (fixPassExpr c) = true := by
      rw [needFixBool_fixPassExpr]
      have := boolShaped_eq_not_needFixBool c
      rw [hb'] at this
      simpa using this.symm
    rw [condResult, if_neg (by simp [hb'])]
    cases he : fixPassExpr c with
    | mk op' text' left' right' list' block' after' xt' xd' com' =>
      rw [he] at hn
      simp [fixBool, hn, copyExpr, Expr.op, Expr.left, Expr.text, Expr.list, Expr.block,
        Expr.after, Expr.xtype, Expr.xdecl, Expr.comments]

/-- C4 (amended): after the boolean-fixup pass of the syntax rewriter,
every condition position — the expression of an `if` or `for`, and the
operands of `!`, `&&`, `||` — holds `condResult` of the original
condition: a boolean-shaped condition (comparison, logical operator, `!`,
or a bool-typed `SideEffectFunc`, *looking through parentheses*) is left
in place, and any other condition `c` becomes `c != 0`, or `c != nil`
when the (once paren-stripped) condition is a pointer-typed name. -/
theorem fixBool_condition_spec
    (sop : StmtOp) (hop : sop = StmtOp.sIf ∨ sop = StmtOp.sFor)
    (lop : ExprOp) (hlop : lop = ExprOp.andand ∨ lop = ExprOp.oror)
    (pre post : Option Expr) (c c2 : Expr) (body els : Option Stmt) (block : List Stmt)
    (labels : List Label) (text ntext : String) (decl : Option Decl) (com ncom : Comments)
    (xt : Option CType) (xd : Option Decl) :
    (fixPassStmt (.mk sop pre (some c) post body els block labels text decl com)).expr
        = some (condResult c) ∧
    (fixPassExpr (.mk lop ntext (some c) (some c2) [] [] [] xt xd ncom)).left
        = some (condResult c) ∧
    (fixPassExpr (.mk lop ntext (some c2) (some c) [] [] [] xt xd ncom)).right
        = some (condResult c) ∧
    (fixPassExpr (.mk ExprOp.not ntext (some c) none [] [] [] xt xd ncom)).left
        = some (condResult c) := by
  refine ⟨?_, ?_, ?_, ?_⟩
  · rcases hop with h | h <;> subst h <;>
      simp [fixPassStmt, fixPassCond, Stmt.expr, fixBool_fixPass_eq_condResult]
  · rcases hlop with h | h <;> subst h <;>
      simp [fixPassExpr, fixPassCond, Expr.left, fixBool_fixPass_eq_condResult]
  · rcases hlop with h | h <;> subst h <;>
      simp [fixPassExpr, fixPassCond, Expr.right, fixBool_fixPass_eq_condResult]
  · simp [fixPassExpr, fixPassCond, Expr.left, fixBool_fixPass_eq_condResult]

theorem fixBool_condition_spec_witness :
    (fixPassStmt (.mk .sIf none (some (nameLeaf "x" none none Comments.empty)) none none none
        [] [] "" none Comments.empty)).expr
      = some (condResult (nameLeaf "x" none none Comments.empty)) ∧
    condResult (nameLeaf "x" none none Comments.empty)
      = .mk .noteq "x" (some (nameLeaf "x" none none Comments.empty))
          (some (.mk .name "0" none none [] [] [] none none Comments.empty))
          [] [] [] none none Comments.empty := by
  constructor
  · exact (fixBool_condition_spec .sIf (Or.inl rfl) .andand (Or.inl rfl) none none
      (nameLeaf "x" none none Comments.empty) (nameLeaf "y" none none Comments.empty)
      none none [] [] "" "" none Comments.empty Comments.empty none none).1
  · simp [condResult, boolShaped, topBoolShaped, isCmpOp, nameLeaf, Expr.op, Expr.text,
      fixPassExpr, fixPassOExpr, fixPassList, fixPassStmts, copyExpr, pointerName,
      Expr.left, Expr.list, Expr.block, Expr.after, Expr.xtype, Expr.xdecl, Expr.comments]

set_option maxHeartbeats 1000000 in
theorem doSideEffects_nameLeaf (s : String) (xt : Option CType) (xd : Option Decl)
    (com : Comments) (mode : Mode) (n : Nat) :
    doSideEffects (.mk .name s none none [] [] [] xt xd com) mode n
      = (.mk .name s none none [] [] [] xt xd com, [], [], n) := by
  rw [doSideEffects]
  simp [doSideEffectsOpt, doSideEffectsList, extractNode, isAssignOp]
  intro c1' c2' c3' tail h
  exact absurd h (by simp)

/-- C5 (confirmed): a post-increment/decrement of a name `x` used as a
value.  In `sideNoAfter` mode the extractor allocates a fresh temporary
`t = tmpN`, emits `t := x` and `x++` (resp. `x--`) into `before`, and the
residue is the name `t`; in a normal value context the post-operation is
emitted into `after` and the residue is the lvalue (comments merged). -/
theorem doSideEffects_postinc_spec
    (iop : ExprOp) (hiop : iop = ExprOp.postinc ∨ iop = ExprOp.postdec)
    (s : String) (xd : Option Decl) (xt : Option CType) (lcom com : Comments)
    (itext : String) (ixt : Option CType) (ixd : Option Decl) (n : Nat) :
    doSideEffects (.mk iop itext (some (nameLeaf s xt xd lcom)) none [] [] [] ixt ixd com)
        ⟨false, true⟩ n
      = (Expr.mk .name ("tmp" ++ toString n) none none [] [] [] ixt
            (some (mkTmpDecl n xt)) com,
         [mkStmtExpr (.mk .colonEq "" (some (tmpNameExpr (mkTmpDecl n xt)))
            (some (nameLeaf s xt xd lcom)) [] [] [] none none Comments.empty),
          mkStmtExpr (.mk iop "" (some (nameLeaf s xt xd Comments.empty)) none [] [] []
            none none Comments.empty)],
         [], n + 1) ∧
    doSideEffects (.mk iop itext (some (nameLeaf s xt xd lcom)) none [] [] [] ixt ixd com)
        ⟨false, false⟩ n
      = (Expr.mk .name s none none [] [] [] xt xd
           ⟨com.before ++ lcom.before, com.after ++ lcom.after, com.suffix ++ lcom.suffix⟩,
         [],
         [mkStmtExpr (.mk iop itext (some (nameLeaf s xt xd lcom)) none [] [] [] ixt ixd
            Comments.empty)],
         n) := by
  rcases hiop with h | h <;> subst h <;>
    refine ⟨?_, ?_⟩ <;>
    (rw [doSideEffects]
     simp [doSideEffectsOpt, doSideEffectsList, doSideEffects_nameLeaf, extractNode,
       extractPost, isAssignOp, forceCheap, copyExpr, fixMerge, mkTmpDecl, tmpNameExpr,
       setOp, Expr.op, Expr.left, Expr.xtype, Expr.comments, mkStmtExpr, Comments.empty,
       nameLeaf, Decl.name]
     all_goals (intro c1' c2' c3' tail h'; exact absurd h' (by simp)))

theorem doSideEffects_postinc_spec_witness :
    doSideEffects (.mk .postinc "" (some (nameLeaf "x" none none Comments.empty)) none [] [] []
        none none Comments.empty) ⟨false, true⟩ 7
      = (Expr.mk .name "tmp7" none none [] [] [] none (some (mkTmpDecl 7 none))
            Comments.empty,
         [mkStmtExpr (.mk .colonEq "" (some (tmpNameExpr (mkTmpDecl 7 none)))
            (some (nameLeaf "x" none none Comments.empty)) [] [] [] none none Comments.empty),
          mkStmtExpr (.mk .postinc "" (some (nameLeaf "x" none none Comments.empty)) none [] [] []
            none none Comments.empty)],
         [], 8) := by
  have h := (doSideEffects_postinc_spec .postinc (Or.inl rfl) "x" none none
    Comments.empty Comments.empty "" none none 7).1
  simpa using h

theorem colonEqAssignTo_op {stmt : Stmt} {n : Nat} (h : colonEqAssignTo stmt n = true) :
    stmt.op = StmtOp.stmtExpr := by
  unfold colonEqAssignTo at h
  exact of_decide_eq_true (Bool.and_eq_true _ _ |>.mp h).1

theorem colonEqAssignTo_uses {stmt : Stmt} {n : Nat} (h : colonEqAssignTo stmt n = true) :
    usesStmt stmt n = true := by
  cases stmt with
  | mk op pre expr post body els block labels text decl com =>
    cases expr with
    | none => simp [colonEqAssignTo, Stmt.expr] at h
    | some e =>
      cases e with
      | mk eop etext eleft eright elist eblock eafter ext exd ecom =>
        cases eleft with
        | none => simp [colonEqAssignTo, Stmt.expr, Expr.left, Expr.op] at h
        | some l =>
          cases l with
          | mk lop ltext lleft lright llist lblock lafter lxt lxd lcom =>
            cases lxd with
            | none => simp [colonEqAssignTo, Stmt.expr, Expr.left, Expr.xdecl, Expr.op] at h
            | some dx =>
              simp only [colonEqAssignTo, Stmt.expr, Stmt.op, Expr.left, Expr.xdecl,
                Expr.op] at h
              simp only [Bool.and_eq_true, decide_eq_true_eq, beq_iff_eq] at h
              obtain ⟨h1, h2, h3, h4⟩ := h
              simp [usesStmt, usesOExpr, usesExpr, h3, h4]

theorem colonEqAssignTo_ne {stmt : Stmt} {n m : Nat} (h : colonEqAssignTo stmt n = true)
    (hne : m ≠ n) : colonEqAssignTo stmt m = false := by
  cases stmt with
  | mk op pre expr post body els block labels text decl com =>
    cases expr with
    | none => simp [colonEqAssignTo, Stmt.expr] at h
    | some e =>
      cases e with
      | mk eop etext eleft eright elist eblock eafter ext exd ecom =>
        cases eleft with
        | none => simp [colonEqAssignTo, Stmt.expr, Expr.left, Expr.op] at h
        | some l =>
          cases l with
          | mk lop ltext lleft lright llist lblock lafter lxt lxd lcom =>
            cases lxd with
            | none => simp [colonEqAssignTo, Stmt.expr, Expr.left, Expr.xdecl, Expr.op] at h
            | some dx =>
              simp only [colonEqAssignTo, Stmt.expr, Stmt.op, Expr.left, Expr.xdecl,
                Expr.op] at h ⊢
              simp only [Bool.and_eq_true, decide_eq_true_eq, beq_iff_eq] at h
              obtain ⟨h1, h2, h3, h4⟩ := h
              simp [h1, h2, h3, h4, Ne.symm hne]

theorem setStmtExprOp_op (stmt : Stmt) (o : ExprOp) :
    (setStmtExprOp stmt o).op = stmt.op := by
  cases stmt with
  | mk op pre expr post body els block labels text decl com =>
    simp [setStmtExprOp, setStmtExpr, Stmt.op, Stmt.expr]

theorem colonEqAssignTo_after_colonEq (stmt : Stmt) (m : Nat) :
    colonEqAssignTo (setStmtExprOp stmt ExprOp.colonEq) m = false := by
  cases stmt with
  | mk op pre expr post body els block labels text decl com =>
    cases expr with
    | none => simp [colonEqAssignTo, setStmtExprOp, setStmtExpr, Stmt.expr]
    | some e =>
      cases e with
      | mk eop etext eleft eright elist eblock eafter ext exd ecom =>
        simp [colonEqAssignTo, setStmtExprOp, setStmtExpr, setOp, Stmt.expr, Expr.op]

theorem slidePending_cons_none (d : Stmt) (ps : List Stmt) (stmt : Stmt)
    (rest : List Stmt) (h : d.decl = none) :
    slidePending (d :: ps) stmt rest
      = (d :: (slidePending ps stmt rest).1, (slidePending ps stmt rest).2.1,
         (slidePending ps stmt rest).2.2) := by
  rw [slidePending, h]

theorem slidePending_cons_nouse (d : Stmt) (ps : List Stmt) (stmt : Stmt)
    (rest : List Stmt) (dd : Decl) (h : d.decl = some dd)
    (hu : usesStmt stmt dd.id = false) :
    slidePending (d :: ps) stmt rest
      = (d :: (slidePending ps stmt rest).1, (slidePending ps stmt rest).2.1,
         (slidePending ps stmt rest).2.2) := by
  rw [slidePending, h]
  simp [hu]

theorem slidePending_cons_colonEq (d : Stmt) (ps : List Stmt) (stmt : Stmt)
    (rest : List Stmt) (dd : Decl) (h : d.decl = some dd)
    (hc : colonEqAssignTo stmt dd.id = true) :
    slidePending (d :: ps) stmt rest
      = slidePending ps (setStmtExprOp stmt ExprOp.colonEq) rest := by
  rw [slidePending, h]
  simp [colonEqAssignTo_uses hc, hc]

theorem slidePending_cons_emit (d : Stmt) (ps : List Stmt) (stmt : Stmt)
    (rest : List Stmt) (dd : Decl) (h : d.decl = some dd)
    (hu : usesStmt stmt dd.id = true) (hc : colonEqAssignTo stmt dd.id = false)
    (hop : stmt.op = StmtOp.stmtExpr) :
    slidePending (d :: ps) stmt rest
      = ((slidePending ps stmt rest).1, d :: (slidePending ps stmt rest).2.1,
         (slidePending ps stmt rest).2.2) := by
  rw [slidePending, h]
  simp [hu, hc, hop]

theorem slidePending_noassign (p : List Stmt) (stmt : Stmt) (rest : List Stmt)
    (hop : stmt.op = StmtOp.stmtExpr)
    (hne : ∀ n : Nat, colonEqAssignTo stmt n = false) :
    (slidePending p stmt rest).2.2 = stmt ∧
    (∀ s ∈ (slidePending p stmt rest).1, s ∈ p) ∧
    (∀ s ∈ (slidePending p stmt rest).2.1, s ∈ p) := by
  induction p with
  | nil => simp [slidePending]
  | cons d ps ih =>
    obtain ⟨ih1, ih2, ih3⟩ := ih
    cases hdd : d.decl with
    | none =>
      rw [slidePending_cons_none d ps stmt rest hdd]
      refine ⟨ih1, ?_, ?_⟩
      · intro s hs
        rcases List.mem_cons.mp hs with h | h
        · exact h ▸ List.mem_cons_self d ps
        · exact List.mem_cons_of_mem d (ih2 s h)
      · intro s hs
        exact List.mem_cons_of_mem d (ih3 s hs)
    | some dd =>
      cases hu : usesStmt stmt dd.id with
      | false =>
        rw [slidePending_cons_nouse d ps stmt rest dd hdd hu]
        refine ⟨ih1, ?_, ?_⟩
        · intro s hs
          rcases List.mem_cons.mp hs with h | h
          · exact h ▸ List.mem_cons_self d ps
          · exact List.mem_cons_of_mem d (ih2 s h)
        · intro s hs
          exact List.mem_cons_of_mem d (ih3 s hs)
      | true =>
        rw [slidePending_cons_emit d ps stmt rest dd hdd hu (hne dd.id) hop]
        refine ⟨ih1, ?_, ?_⟩
        · intro s hs
          exact List.mem_cons_of_mem d (ih2 s hs)
        · intro s hs
          rcases List.mem_cons.mp hs with h | h
          · exact h ▸ List.mem_cons_self d ps
          · exact List.mem_cons_of_mem d (ih3 s h)

/-- C7 (confirmed): during declaration sliding, when a pending
uninitialized declaration `d` reaches a top-level assignment statement
whose left side is the name declared by `d` (`stmt.Expr.Left.XDecl ==
d.Decl`), the assignment operator is rewritten to `:=` and `d` is
dropped from the pending queue — in particular neither the remaining
pending queue nor the declarations emitted before the statement contain
`d`, so no separate `var` declaration for `d` is produced. -/
theorem slide_assignment_colonEq
    (p1 p2 : List Stmt) (d : Stmt) (dd : Decl) (stmt : Stmt) (rest : List Stmt)
    (hd : d.decl = some dd)
    (hceq : colonEqAssignTo stmt dd.id = true)
    (hp : ∀ s ∈ p1 ++ p2, ∀ sd, s.decl = some sd → sd.id ≠ dd.id) :
    (slidePending (p1 ++ d :: p2) stmt rest).2.2 = setStmtExprOp stmt ExprOp.colonEq ∧
    (∀ s ∈ (slidePending (p1 ++ d :: p2) stmt rest).1, s ∈ p1 ++ p2) ∧
    (∀ s ∈ (slidePending (p1 ++ d :: p2) stmt rest).2.1, s ∈ p1 ++ p2) := by
  induction p1 with
  | nil =>
    rw [List.nil_append, slidePending_cons_colonEq d p2 stmt rest dd hd hceq]
    have h0 := slidePending_noassign p2 (setStmtExprOp stmt ExprOp.colonEq) rest
      (by rw [setStmtExprOp_op]; exact colonEqAssignTo_op hceq)
      (fun n => colonEqAssignTo_after_colonEq stmt n)
    exact ⟨h0.1, fun s hs => by simpa using h0.2.1 s hs,
      fun s hs => by simpa using h0.2.2 s hs⟩
  | cons q p1' ih =>
    have hp' : ∀ s ∈ p1' ++ p2, ∀ sd, s.decl = some sd → sd.id ≠ dd.id := by
      intro s hs
      exact hp s (by simp [List.mem_append] at hs ⊢; tauto)
    obtain ⟨ih1, ih2, ih3⟩ := ih hp'
    rw [List.cons_append]
    cases hqd : q.decl with
    | none =>
      rw [slidePending_cons_none q (p1' ++ d :: p2) stmt rest hqd]
      refine ⟨ih1, ?_, ?_⟩
      · intro s hs
        rcases List.mem_cons.mp hs with h | h
        · exact h ▸ (by simp)
        · have := ih2 s h
          simp only [List.cons_append, List.mem_cons, List.mem_append] at this ⊢
          tauto
      · intro s hs
        have := ih3 s hs
        simp only [List.cons_append, List.mem_cons, List.mem_append] at this ⊢
        tauto
    | some sd =>
      have hsd : sd.id ≠ dd.id := hp q (by simp) sd hqd
      have hcne : colonEqAssignTo stmt sd.id = false := colonEqAssignTo_ne hceq hsd
      have hops : stmt.op = StmtOp.stmtExpr := colonEqAssignTo_op hceq
      cases hu : usesStmt stmt sd.id with
      | false =>
        rw [slidePending_cons_nouse q (p1' ++ d :: p2) stmt rest sd hqd hu]
        refine ⟨ih1, ?_, ?_⟩
        · intro s hs
          rcases List.mem_cons.mp hs with h | h
          · exact h ▸ (by simp)
          · have := ih2 s h
            simp only [List.cons_append, List.mem_cons, List.mem_append] at this ⊢
            tauto
        · intro s hs
          have := ih3 s hs
          simp only [List.cons_append, List.mem_cons, List.mem_append] at this ⊢
          tauto
      | true =>
        rw [slidePending_cons_emit q (p1' ++ d :: p2) stmt rest sd hqd hu hcne hops]
        refine ⟨ih1, ?_, ?_⟩
        · intro s hs
          have := ih2 s hs
          simp only [List.cons_append, List.mem_cons, List.mem_append] at this ⊢
          tauto
        · intro s hs
          rcases List.mem_cons.mp hs with h | h
          · exact h ▸ (by simp)
          · have := ih3 s h
            simp only [List.cons_append, List.mem_cons, List.mem_append] at this ⊢
            tauto

theorem slide_assignment_colonEq_witness :
    (slidePending
        [Stmt.mk .stmtDecl none none none none none [] [] ""
           (some (Decl.mk 5 "x" 0 none none none)) Comments.empty]
        (Stmt.mk .stmtExpr none
          (some (Expr.mk .eq ""
            (some (Expr.mk .name "x" none none [] [] [] none
              (some (Decl.mk 5 "x" 0 none none none)) Comments.empty))
            (some (Expr.mk .number "1" none none [] [] [] none none Comments.empty))
            [] [] [] none none Comments.empty))
          none none none [] [] "" none Comments.empty)
        []).2.2
      = Stmt.mk .stmtExpr none
          (some (Expr.mk .colonEq ""
            (some (Expr.mk .name "x" none none [] [] [] none
              (some (Decl.mk 5 "x" 0 none none none)) Comments.empty))
            (some (Expr.mk .number "1" none none [] [] [] none none Comments.empty))
            [] [] [] none none Comments.empty))
          none none none [] [] "" none Comments.empty ∧
    (slidePending
        [Stmt.mk .stmtDecl none none none none none [] [] ""
           (some (Decl.mk 5 "x" 0 none none none)) Comments.empty]
        (Stmt.mk .stmtExpr none
          (some (Expr.mk .eq ""
            (some (Expr.mk .name "x" none none [] [] [] none
              (some (Decl.mk 5 "x" 0 none none none)) Comments.empty))
            (some (Expr.mk .number "1" none none [] [] [] none none Comments.empty))
            [] [] [] none none Comments.empty))
          none none none [] [] "" none Comments.empty)
        []).1 = [] := by
  have h := slide_assignment_colonEq [] []
    (Stmt.mk .stmtDecl none none none none none [] [] ""
      (some (Decl.mk 5 "x" 0 none none none)) Comments.empty)
    (Decl.mk 5 "x" 0 none none none)
    (Stmt.mk .stmtExpr none
      (some (Expr.mk .eq ""
        (some (Expr.mk .name "x" none none [] [] [] none
          (some (Decl.mk 5 "x" 0 none none none)) Comments.empty))
        (some (Expr.mk .number "1" none none [] [] [] none none Comments.empty))
        [] [] [] none none Comments.empty))
      none none none [] [] "" none Comments.empty)
    [] rfl (by rfl) (by intro s hs; simp at hs)
  simp only [List.nil_append] at h
  refine ⟨?_, ?_⟩
  · have h1 := h.1
    simpa [setStmtExprOp, setStmtExpr, setOp, Stmt.expr] using h1
  · rw [List.eq_nil_iff_forall_not_mem]
    intro a ha
    have := h.2.1 a ha
    simp at this

/-- C10 (confirmed): `moveDecls` touches only function definitions
(`d.Type != nil && d.Type.Kind == Func && d.Body != nil`); every other
top-level declaration — globals, typedefs, structs, enums, bodyless
prototypes — is returned unchanged at its position. -/
theorem moveDecls_frame (ds : List Decl) (i : Nat) (d : Decl)
    (hd : ds[i]? = some d) (hg : isFuncDef d = false) :
    (moveDecls ds)[i]? = some d := by
  simp [moveDecls, List.getElem?_map, hd, hg]

theorem moveDecls_frame_witness :
    (moveDecls [Decl.mk 0 "g" 0 (some ⟨TypeKind.intKind⟩) none none])[0]?
      = some (Decl.mk 0 "g" 0 (some ⟨TypeKind.intKind⟩) none none) :=
  moveDecls_frame _ 0 _ rfl rfl

/-- C4 (counterexample): the condition `(x == y)` of an `if` — a
parenthesized comparison — is *not* one of the boolean-shaped operators
the claim lists (its top operator is `Paren`), yet the boolean-fixup pass
leaves it untouched instead of replacing it with `<expr> != 0`:
`needFixBool` looks through parentheses. -/
theorem relabelStmt_of_not_hasCases (s : Stmt) (h : hasCases s = false) : relabelStmt s = s := by
  unfold hasCases casesOf at h
  unfold relabelStmt
  rcases hsp : splitLabels s.labels with ⟨ns, cs, d⟩
  simp only [hsp] at h ⊢
  cases d <;> simp_all

theorem switchLoop_caseFree (xs rest out : List Stmt) (h : Bool)
    (hx : ∀ s ∈ xs, hasCases s = false) :
    switchLoop (xs ++ rest) out h = switchLoop rest (out ++ xs) h := by
  induction xs generalizing out with
  | nil => simp
  | cons s xs ih =>
    have hs := hx s (by simp)
    rw [List.cons_append, switchLoop]
    simp only [hs, relabelStmt_of_not_hasCases s hs, Bool.false_eq_true, if_false]
    rw [ih (out ++ [s]) (fun x hx' => hx x (by simp [hx']))]
    simp

theorem lastNonEmptyRev_skip (er : List Stmt) (t : Stmt) (pr : List Stmt)
    (he : ∀ s ∈ er, s.op = StmtOp.empty) (ht : ¬t.op = StmtOp.empty) :
    lastNonEmptyRev (er ++ t :: pr) = some t := by
  induction er with
  | nil => simp [lastNonEmptyRev, ht]
  | cons s er ih =>
    have hs := he s (by simp)
    simp only [List.cons_append, lastNonEmptyRev, hs, if_pos rfl]
    exact ih (fun x hx => he x (by simp [hx]))

theorem dropBreakRev_skip (er : List Stmt) (t : Stmt) (pr : List Stmt)
    (he : ∀ s ∈ er, s.op = StmtOp.empty)
    (hbrk : (t.op = StmtOp.sBreak && t.labels.isEmpty) = true) :
    dropBreakRev (er ++ t :: pr) = er ++ setStmtOp t .empty :: pr := by
  have ht : t.op = StmtOp.sBreak := by
    simpa using (Bool.and_eq_true _ _ |>.mp hbrk).1
  induction er with
  | nil =>
    rw [List.nil_append, dropBreakRev]
    simp [ht, (Bool.and_eq_true _ _ |>.mp hbrk).2]
  | cons s er ih =>
    have hs := he s (by simp)
    rw [List.cons_append, dropBreakRev]
    simp [hs, ih (fun x hx => he x (by simp [hx]))]

theorem fixBetween_loc (pre : List Stmt) (t : Stmt) (emps : List Stmt)
    (he : ∀ s ∈ emps, s.op = StmtOp.empty) (ht : ¬t.op = StmtOp.empty) :
    fixBetween (pre ++ t :: emps) = groupFixMid pre t emps := by
  have hrev : (pre ++ t :: emps).reverse = emps.reverse ++ t :: pre.reverse := by simp
  have hrevmem : ∀ s ∈ emps.reverse, s.op = StmtOp.empty := by
    intro s hs
    exact he s (List.mem_reverse.mp hs)
  unfold fixBetween groupFixMid
  rw [hrev, lastNonEmptyRev_skip _ _ _ hrevmem ht]
  dsimp only
  by_cases hb : (t.op = StmtOp.sBreak && t.labels.isEmpty) = true
  · rw [if_pos hb, if_pos hb, dropBreakRev_skip _ _ _ hrevmem hb]
    simp
  · rw [if_neg hb, if_neg hb]

theorem dropTrailingBreak_loc (pre : List Stmt) (t : Stmt) (emps : List Stmt)
    (he : ∀ s ∈ emps, s.op = StmtOp.empty) (ht : ¬t.op = StmtOp.empty) :
    dropTrailingBreak (pre ++ t :: emps) = groupFixEnd pre t emps := by
  have hrev : (pre ++ t :: emps).reverse = emps.reverse ++ t :: pre.reverse := by simp
  have hrevmem : ∀ s ∈ emps.reverse, s.op = StmtOp.empty := by
    intro s hs
    exact he s (List.mem_reverse.mp hs)
  unfold dropTrailingBreak groupFixEnd
  rw [hrev, lastNonEmptyRev_skip _ _ _ hrevmem ht]
  dsimp only
  by_cases hb : (t.op = StmtOp.sBreak && t.labels.isEmpty) = true
  · rw [if_pos hb, if_pos hb, dropBreakRev_skip _ _ _ hrevmem hb]
    simp
  · rw [if_neg hb, if_neg hb]

theorem groupFixMid_cons (x : Stmt) (pre : List Stmt) (t : Stmt) (emps : List Stmt) :
    groupFixMid (x :: pre) t emps = x :: groupFixMid pre t emps := by
  unfold groupFixMid
  split_ifs <;> simp

theorem groupFixEnd_append (a b : List Stmt) (t : Stmt) (emps : List Stmt) :
    groupFixEnd (a ++ b) t emps = a ++ groupFixEnd b t emps := by
  unfold groupFixEnd
  split_ifs <;> simp

theorem groupFixEnd_cons (x : Stmt) (pre : List Stmt) (t : Stmt) (emps : List Stmt) :
    groupFixEnd (x :: pre) t emps = x :: groupFixEnd pre t emps := by
  unfold groupFixEnd
  split_ifs <;> simp

theorem switchLoop_caseFree_nil (xs out : List Stmt) (h : Bool)
    (hx : ∀ s ∈ xs, hasCases s = false) :
    switchLoop xs out h = out ++ xs := by
  have h0 := switchLoop_caseFree xs [] out h hx
  rw [List.append_nil] at h0
  rw [h0, switchLoop]

/-- C6 (confirmed): for two consecutive case groups of a switch body (and
the end of the switch), the reshaper drops an unlabeled `break` ending
the earlier group (ignoring trailing `Empty` statements), else inserts an
explicit `fallthrough` before the next case group when the group's last
statement falls through; a trailing unlabeled `break` of the final group
is dropped as well. -/
theorem rewriteSwitch_pair_spec
    (c1 c2 t1 t2 : Stmt) (b1a emps1 b2a emps2 : List Stmt)
    (hc1 : hasCases c1 = true) (hc2 : hasCases c2 = true)
    (hb1 : ∀ s ∈ b1a ++ t1 :: emps1, hasCases s = false)
    (hb2 : ∀ s ∈ b2a ++ t2 :: emps2, hasCases s = false)
    (he1 : ∀ s ∈ emps1, s.op = StmtOp.empty) (ht1 : ¬t1.op = StmtOp.empty)
    (he2 : ∀ s ∈ emps2, s.op = StmtOp.empty) (ht2 : ¬t2.op = StmtOp.empty) :
    rewriteSwitchBody (c1 :: (b1a ++ t1 :: emps1) ++ c2 :: (b2a ++ t2 :: emps2))
      = (relabelStmt c1 :: groupFixMid b1a t1 emps1)
        ++ relabelStmt c2 :: groupFixEnd b2a t2 emps2 := by
  unfold rewriteSwitchBody
  rw [show (c1 :: (b1a ++ t1 :: emps1)) ++ c2 :: (b2a ++ t2 :: emps2)
      = c1 :: ((b1a ++ t1 :: emps1) ++ c2 :: (b2a ++ t2 :: emps2)) by simp]
  rw [switchLoop]
  simp only [hc1, eq_self_iff_true, if_true, Bool.false_eq_true, if_false, List.nil_append]
  rw [switchLoop_caseFree _ _ _ _ hb1]
  rw [switchLoop]
  simp only [hc2, eq_self_iff_true, if_true]
  rw [show [relabelStmt c1] ++ (b1a ++ t1 :: emps1)
      = (relabelStmt c1 :: b1a) ++ t1 :: emps1 by simp]
  rw [fixBetween_loc _ _ _ he1 ht1]
  rw [switchLoop_caseFree_nil _ _ _ hb2]
  rw [show (groupFixMid (relabelStmt c1 :: b1a) t1 emps1 ++ [relabelStmt c2])
        ++ (b2a ++ t2 :: emps2)
      = (groupFixMid (relabelStmt c1 :: b1a) t1 emps1 ++ relabelStmt c2 :: b2a)
        ++ t2 :: emps2 by simp]
  rw [dropTrailingBreak_loc _ _ _ he2 ht2]
  rw [groupFixEnd_append, groupFixEnd_cons, groupFixMid_cons]

theorem rewriteSwitch_pair_spec_witness :
    rewriteSwitchBody
        [Stmt.mk .stmtExpr none none none none none [] [.mk .lCase "" none] "" none
           Comments.empty,
         Stmt.mk .sBreak none none none none none [] [] "" none Comments.empty,
         Stmt.mk .stmtExpr none none none none none [] [.mk .lCase "" none] "" none
           Comments.empty,
         Stmt.mk .sBreak none none none none none [] [] "" none Comments.empty]
      = [Stmt.mk .stmtExpr none none none none none [] [.mk .lCase "" none] "" none
           Comments.empty,
         Stmt.mk .empty none none none none none [] [] "" none Comments.empty,
         Stmt.mk .stmtExpr none none none none none [] [.mk .lCase "" none] "" none
           Comments.empty,
         Stmt.mk .empty none none none none none [] [] "" none Comments.empty] := by
  have h := rewriteSwitch_pair_spec
    (.mk .stmtExpr none none none none none [] [.mk .lCase "" none] "" none Comments.empty)
    (.mk .stmtExpr none none none none none [] [.mk .lCase "" none] "" none Comments.empty)
    (.mk .sBreak none none none none none [] [] "" none Comments.empty)
    (.mk .sBreak none none none none none [] [] "" none Comments.empty)
    [] [] [] []
    (by simp [hasCases, casesOf, splitLabels, Label.op, Stmt.labels])
    (by simp [hasCases, casesOf, splitLabels, Label.op, Stmt.labels])
    (by
      intro s hs
      simp at hs
      subst hs
      simp [hasCases, casesOf, splitLabels, Stmt.labels])
    (by
      intro s hs
      simp at hs
      subst hs
      simp [hasCases, casesOf, splitLabels, Stmt.labels])
    (by intro s hs; simp at hs) (by simp [Stmt.op])
    (by intro s hs; simp at hs) (by simp [Stmt.op])
  simpa [relabelStmt, splitLabels, setStmtLabels, groupFixMid, groupFixEnd, setStmtOp,
    Stmt.op, Stmt.labels, fallsThrough] using h

theorem fixBool_paren_counterexample :
    topBoolShaped parenCmp = false ∧
    fixPassStmt parenCmpIf = parenCmpIf ∧
    parenCmp.op ≠ ExprOp.noteq := by
  refine ⟨by simp [topBoolShaped, parenCmp, isCmpOp, Expr.op, Expr.text], ?_, by
    simp [parenCmp, Expr.op]⟩
  simp only [parenCmpIf, parenCmp]
  rw [fixPassStmt]
  simp [fixPassCond, fixPassOExpr, fixPassOStmt, fixPassStmts, fixPassLabels, fixPassODecl,
    fixPassExpr, fixPassList, fixBool, needFixBool, nameLeaf]

end CC

namespace Rewrite

mutual
theorem matchNil_iff_eq (e v : GoExpr) : matchNil e v = true ↔ e = v := by
  cases e <;> cases v <;> try (simp [matchNil]; done)
  case callExpr.callExpr f1 a1 x1 f2 a2 x2 =>
    have h1 := matchNil_iff_eq f1 f2
    have h2 := matchNilList_iff_eq a1 a2
    simp [matchNil, h1, h2] <;> tauto
  case selectorExpr.selectorExpr x1 s1 x2 s2 =>
    have h1 := matchNil_iff_eq x1 x2
    simp [matchNil, h1] <;> tauto
  case binaryExpr.binaryExpr o1 x1 y1 o2 x2 y2 =>
    have h1 := matchNil_iff_eq x1 x2
    have h2 := matchNil_iff_eq y1 y2
    simp [matchNil, h1, h2] <;> tauto
  case parenExpr.parenExpr x1 x2 =>
    have h1 := matchNil_iff_eq x1 x2
    simp [matchNil, h1]
  case unaryExpr.unaryExpr o1 x1 o2 x2 =>
    have h1 := matchNil_iff_eq x1 x2
    simp [matchNil, h1] <;> tauto
  case starExpr.starExpr x1 x2 =>
    have h1 := matchNil_iff_eq x1 x2
    simp [matchNil, h1]
termination_by sizeOf e
decreasing_by all_goals (simp_wf <;> omega)

theorem matchNilList_iff_eq (l1 l2 : List GoExpr) : matchNilList l1 l2 = true ↔ l1 = l2 := by
  cases l1 <;> cases l2 <;> try (simp [matchNilList]; done)
  case cons.cons e1 t1 e2 t2 =>
    have h1 := matchNil_iff_eq e1 e2
    have h2 := matchNilList_iff_eq t1 t2
    simp [matchNilList, h1, h2]
termination_by sizeOf l1
decreasing_by all_goals (simp_wf <;> omega)
end

/-- C2 (amended): in the pattern-rewrite engine, an identifier acts as a
wildcard exactly when its name consists of a *single* lower-case rune
(`isWildcard` requires `size == len(s)`); such a wildcard matches any
expression, binding it on first occurrence, and a repeated occurrence
matches only an expression structurally equal to the bound one
(`match` with `m == nil` is structural equality). -/
theorem wildcard_spec :
    (∀ s : String, isWildcard s = true ↔ ∃ c, s.data = [c] ∧ isLowerRune c = true) ∧
    (∀ (m : Bindings) (name : String) (v : GoExpr), isWildcard name = true →
      List.lookup name m = none →
      matchE m (.ident name) v = some ((name, v) :: m)) ∧
    (∀ (m : Bindings) (name : String) (v old : GoExpr), isWildcard name = true →
      List.lookup name m = some old →
      matchE m (.ident name) v = if matchNil old v = true then some m else none) ∧
    (∀ e v : GoExpr, matchNil e v = true ↔ e = v) := by
  refine ⟨?_, ?_, ?_, matchNil_iff_eq⟩
  · intro s
    obtain ⟨l⟩ := s
    cases l with
    | nil => simp [isWildcard]
    | cons c rest =>
      cases rest with
      | nil => simp [isWildcard]
      | cons c2 rest2 => simp [isWildcard]
  · intro m name v hw hl
    simp [matchE, hw, hl]
  · intro m name v old hw hl
    simp [matchE, hw, hl]

theorem wildcard_spec_witness :
    isWildcard "x" = true ∧
    matchE [] (.ident "x") (.callExpr (.ident "g") [] false)
      = some [("x", GoExpr.callExpr (.ident "g") [] false)] ∧
    matchE [("x", GoExpr.ident "q")] (.ident "x") (.ident "q")
      = some [("x", GoExpr.ident "q")] ∧
    matchE [("x", GoExpr.ident "q")] (.ident "x") (.ident "r") = none := by
  have h1 : isWildcard "x" = true := by rfl
  refine ⟨h1, ?_, ?_, ?_⟩
  · exact wildcard_spec.2.1 [] "x" (.callExpr (.ident "g") [] false) h1 (by rfl)
  · have h := wildcard_spec.2.2.1 [("x", GoExpr.ident "q")] "x" (.ident "q")
      (.ident "q") h1 (by rfl)
    simpa [matchNil] using h
  · have h := wildcard_spec.2.2.1 [("x", GoExpr.ident "q")] "x" (.ident "r")
      (.ident "q") h1 (by rfl)
    simpa [matchNil] using h

/-- C2 (counterexample): `fn` starts with a lower-case letter and is an
identifier, yet `isWildcard "fn"` is false (the whole name must be one
rune), and as a pattern it fails to match a non-identifier expression
instead of acting as a wildcard. -/
theorem isWildcard_multirune_counterexample :
    isLowerRune 'f' = true ∧
    isWildcard "fn" = false ∧
    matchE [] (.ident "fn") (.callExpr (.ident "g") [] false) = none := by
  exact ⟨rfl, rfl, rfl⟩

end Rewrite

namespace Driver

/-- C8 (confirmed): one iteration of the parse loop succeeds exactly
when parsing succeeds; on a parse error the diagnostic lines are scanned
for the three patterns, each extracted name not already presumed a type
is added, and the loop exits fatally exactly when no new name was
discovered; any exit of the bounded loop is a parse success or a fatal
error at a state where the scan found no new names. -/
theorem parseLoop_spec {α : Type} (read : List String → Except String α)
    (types haveType : List String) :
    (∀ p, read types = .ok p → doStep read types haveType = .success p) ∧
    (∀ e, read types = .error e →
      (scanNewTypes (splitLines e) haveType = [] →
        doStep read types haveType = .fatal e) ∧
      (scanNewTypes (splitLines e) haveType ≠ [] →
        doStep read types haveType
          = .next (types ++ scanNewTypes (splitLines e) haveType)
              (haveType ++ scanNewTypes (splitLines e) haveType))) ∧
    (∀ (fuel : Nat) (r : Except String α) (t0 h0 : List String),
      doLoop read fuel t0 h0 = some r →
      ∃ t h : List String,
        (∀ p, r = Except.ok p → read t = Except.ok p) ∧
        (∀ e, r = Except.error e → read t = Except.error e ∧
          scanNewTypes (splitLines e) h = [])) := by
  refine ⟨?_, ?_, ?_⟩
  · intro p h
    simp [doStep, h]
  · intro e he
    constructor
    · intro hnil
      simp [doStep, he, hnil]
    · intro hne
      simp [doStep, he, List.isEmpty_iff, hne]
  · intro fuel
    induction fuel with
    | zero => intro r t0 h0 h; simp [doLoop] at h
    | succ fuel ih =>
      intro r t0 h0 h
      rw [doLoop] at h
      cases hread : read t0 with
      | ok p =>
        refine ⟨t0, h0, ?_, ?_⟩
        · intro p' hr
          rw [hread]
          simp [doStep, hread] at h
          rw [← h] at hr
          simpa using hr
        · intro e hr
          simp [doStep, hread] at h
          rw [← h] at hr
          simp at hr
      | error e =>
        by_cases hempty : scanNewTypes (splitLines e) h0 = []
        · refine ⟨t0, h0, ?_, ?_⟩
          · intro p hr
            simp [doStep, hread, hempty] at h
            rw [← h] at hr
            simp at hr
          · intro e' hr
            simp [doStep, hread, hempty] at h
            rw [← h] at hr
            simp at hr
            exact ⟨hr ▸ hread, hr ▸ hempty⟩
        · have hstep : doStep read t0 h0
              = .next (t0 ++ scanNewTypes (splitLines e) h0)
                  (h0 ++ scanNewTypes (splitLines e) h0) := by
            simp [doStep, hread, List.isEmpty_iff, hempty]
          rw [hstep] at h
          exact ih r _ _ h

theorem parseLoop_spec_witness :
    doLoop read0 2 [] [] = some (Except.ok ()) ∧
    (∃ t h : List String,
      (∀ p, (Except.ok () : Except String Unit) = Except.ok p → read0 t = Except.ok p) ∧
      (∀ e, (Except.ok () : Except String Unit) = Except.error e →
        read0 t = Except.error e ∧ scanNewTypes (splitLines e) h = [])) := by
  constructor
  · rfl
  · exact (parseLoop_spec read0 [] []).2.2 2 (.ok ()) [] [] (by rfl)

end Driver

namespace Rename

theorem updAt_length {α : Type} (l : List α) (i : Nat) (f : α → α) :
    (updAt l i f).length = l.length := by
  induction l generalizing i with
  | nil => rfl
  | cons x rest ih =>
    cases i with
    | zero => rfl
    | succ n => simpa [updAt] using ih n

theorem getD_nil (i : Nat) : getD [] i = default := by
  cases i <;> rfl

theorem getD_cons_zero (x : DeclData) (rest : List DeclData) : getD (x :: rest) 0 = x := rfl

theorem getD_cons_succ (x : DeclData) (rest : List DeclData) (n : Nat) :
    getD (x :: rest) (n + 1) = getD rest n := rfl

theorem getD_updAt_ne (st : List DeclData) (i j : Nat) (f : DeclData → DeclData)
    (h : j ≠ i) : getD (updAt st i f) j = getD st j := by
  induction st generalizing i j with
  | nil => rfl
  | cons x rest ih =>
    cases i with
    | zero =>
      cases j with
      | zero => exact absurd rfl h
      | succ m => rfl
    | succ n =>
      cases j with
      | zero => rfl
      | succ m =>
        show getD (updAt rest n f) m = getD rest m
        exact ih n m (by omega)

theorem getD_updAt_self (st : List DeclData) (i : Nat) (f : DeclData → DeclData)
    (h : i < st.length) : getD (updAt st i f) i = f (getD st i) := by
  induction st generalizing i with
  | nil => simp at h
  | cons x rest ih =>
    cases i with
    | zero => rfl
    | succ n =>
      show getD (updAt rest n f) n = f (getD rest n)
      exact ih n (by simpa using h)

theorem updAt_out {α : Type} (l : List α) (i : Nat) (f : α → α)
    (h : l.length ≤ i) : updAt l i f = l := by
  induction l generalizing i with
  | nil => rfl
  | cons x rest ih =>
    cases i with
    | zero => simp at h
    | succ n => simpa [updAt] using ih n (by simpa using h)

theorem sameShape_refl (st : List DeclData) : sameShape st st :=
  ⟨rfl, fun _ => ⟨rfl, rfl, rfl, rfl, rfl, rfl⟩⟩

theorem sameShape_trans {s1 s2 s3 : List DeclData}
    (h1 : sameShape s1 s2) (h2 : sameShape s2 s3) : sameShape s1 s3 := by
  obtain ⟨hl1, hf1⟩ := h1
  obtain ⟨hl2, hf2⟩ := h2
  refine ⟨hl2.trans hl1, fun j => ?_⟩
  obtain ⟨a1, b1, c1, d1, e1, f1⟩ := hf1 j
  obtain ⟨a2, b2, c2, d2, e2, f2⟩ := hf2 j
  exact ⟨a2.trans a1, b2.trans b1, c2.trans c1, d2.trans d1, e2.trans e1, f2.trans f1⟩

theorem sameShape_updName (st : List DeclData) (i : Nat) (g : DeclData → String) :
    sameShape st (updAt st i (fun x => { x with name := g x })) := by
  refine ⟨updAt_length st i _, fun j => ?_⟩
  by_cases hj : j = i
  · subst hj
    by_cases hlen : j < st.length
    · rw [getD_updAt_self st j _ hlen]
      exact ⟨rfl, rfl, rfl, rfl, rfl, rfl⟩
    · rw [updAt_out st j _ (by omega)]
      exact ⟨rfl, rfl, rfl, rfl, rfl, rfl⟩
  · rw [getD_updAt_ne st i j _ hj]
    exact ⟨rfl, rfl, rfl, rfl, rfl, rfl⟩

theorem blockOfBody_congr (st st' : List DeclData) (i : Nat)
    (h : (getD st' i).body = (getD st i).body) : blockOfBody st' i = blockOfBody st i := by
  unfold blockOfBody
  rw [h]

end Rename

namespace Rename

theorem renameStatics_cons (fid : Nat) (s : RStmt) (rest : List RStmt) (st : List DeclData) :
    renameStatics fid (s :: rest) st =
      renameStatics fid rest
        (if s.sop = CC.StmtOp.stmtDecl then
          match s.sdecl with
          | some di =>
            if (getD st di).storage &&& StaticBit ≠ 0 then
              updAt st di (fun x => { x with name := (getD st fid).name ++ "_" ++ x.name })
            else st
          | none => st
        else st) := rfl

theorem renameLoop_cons (count : String → Nat) (ts : List TypeData) (i : Nat)
    (rest : List Nat) (st : List DeclData) :
    renameLoop count ts (i :: rest) st = renameLoop count ts rest (renameStep count ts st i) :=
  rfl

theorem renameStatics_sameShape (fid : Nat) :
    ∀ (ss : List RStmt) (st : List DeclData), sameShape st (renameStatics fid ss st)
  | [], st => sameShape_refl st
  | s :: rest, st => by
    rw [renameStatics_cons]
    by_cases h1 : s.sop = CC.StmtOp.stmtDecl
    · rw [if_pos h1]
      rcases hd : s.sdecl with _ | di
      · exact renameStatics_sameShape fid rest st
      · dsimp only
        by_cases h2 : (getD st di).storage &&& StaticBit ≠ 0
        · rw [if_pos h2]
          exact sameShape_trans
            (sameShape_updName st di (fun x => (getD st fid).name ++ "_" ++ x.name))
            (renameStatics_sameShape fid rest _)
        · rw [if_neg h2]
          exact renameStatics_sameShape fid rest st
    · rw [if_neg h1]
      exact renameStatics_sameShape fid rest st

theorem renameStatics_append (fid : Nat) :
    ∀ (l1 l2 : List RStmt) (st : List DeclData),
      renameStatics fid (l1 ++ l2) st = renameStatics fid l2 (renameStatics fid l1 st)
  | [], l2, st => rfl
  | s :: rest, l2, st => by
    rw [List.cons_append, renameStatics_cons, renameStatics_cons]
    exact renameStatics_append fid rest l2 _

theorem renameStatics_frame (fid j : Nat) :
    ∀ (ss : List RStmt) (st : List DeclData), (∀ s ∈ ss, s.sdecl ≠ some j) →
      getD (renameStatics fid ss st) j = getD st j
  | [], st, _ => rfl
  | s :: rest, st, h => by
    have hs : s.sdecl ≠ some j := h s (List.mem_cons_self s rest)
    have hrest : ∀ s' ∈ rest, s'.sdecl ≠ some j :=
      fun s' hm => h s' (List.mem_cons_of_mem s hm)
    rw [renameStatics_cons]
    by_cases h1 : s.sop = CC.StmtOp.stmtDecl
    · rw [if_pos h1]
      rcases hd : s.sdecl with _ | di
      · exact renameStatics_frame fid j rest st hrest
      · dsimp only
        by_cases h2 : (getD st di).storage &&& StaticBit ≠ 0
        · rw [if_pos h2, renameStatics_frame fid j rest _ hrest]
          exact getD_updAt_ne st di j _ (by intro hh; exact hs (by rw [hd, hh]))
        · rw [if_neg h2]
          exact renameStatics_frame fid j rest st hrest
    · rw [if_neg h1]
      exact renameStatics_frame fid j rest st hrest

theorem renameStatics_nop (fid : Nat) :
    ∀ (ss : List RStmt) (st : List DeclData),
      (∀ s ∈ ss, s.sop = CC.StmtOp.stmtDecl → ∀ di, s.sdecl = some di →
        (getD st di).storage &&& StaticBit = 0) →
      renameStatics fid ss st = st
  | [], st, _ => rfl
  | s :: rest, st, h => by
    have hrest : ∀ s' ∈ rest, s'.sop = CC.StmtOp.stmtDecl → ∀ di, s'.sdecl = some di →
        (getD st di).storage &&& StaticBit = 0 :=
      fun s' hm => h s' (List.mem_cons_of_mem s hm)
    rw [renameStatics_cons]
    by_cases h1 : s.sop = CC.StmtOp.stmtDecl
    · rw [if_pos h1]
      rcases hd : s.sdecl with _ | di
      · exact renameStatics_nop fid rest st hrest
      · dsimp only
        have h2 : (getD st di).storage &&& StaticBit = 0 :=
          h s (List.mem_cons_self s rest) h1 di hd
        rw [if_neg (not_not_intro h2)]
        exact renameStatics_nop fid rest st hrest
    · rw [if_neg h1]
      exact renameStatics_nop fid rest st hrest

end Rename

namespace Rename

theorem renameStepScan_sameShape (ts : List TypeData) (i : Nat) (st : List DeclData) :
    sameShape st (renameStepScan ts i st) := by
  unfold renameStepScan
  rcases hty : (getD st i).typ with _ | t
  · exact sameShape_refl st
  · dsimp only
    by_cases h2 : (getT ts t).kind = CC.TypeKind.func
    · rw [if_pos h2]
      rcases hbd : (getD st i).body with _ | b
      · exact sameShape_refl st
      · dsimp only
        exact renameStatics_sameShape i b.sblock st
    · rw [if_neg h2]
      exact sameShape_refl st

theorem renameStepScan_frame (ts : List TypeData) (i : Nat) (st : List DeclData) (j : Nat)
    (hb : ∀ s ∈ blockOfBody st i, s.sdecl ≠ some j) :
    getD (renameStepScan ts i st) j = getD st j := by
  unfold renameStepScan
  rcases hty : (getD st i).typ with _ | t
  · rfl
  · dsimp only
    by_cases h2 : (getT ts t).kind = CC.TypeKind.func
    · rw [if_pos h2]
      rcases hbd : (getD st i).body with _ | b
      · rfl
      · dsimp only
        refine renameStatics_frame i j b.sblock st ?_
        have heq : blockOfBody st i = b.sblock := by
          unfold blockOfBody
          rw [hbd]
        rw [← heq]
        exact hb
    · rw [if_neg h2]

theorem renameStepScan_nop (ts : List TypeData) (i : Nat) (st : List DeclData)
    (hb : ∀ s ∈ blockOfBody st i, s.sop = CC.StmtOp.stmtDecl → ∀ di, s.sdecl = some di →
      (getD st di).storage &&& StaticBit = 0) :
    renameStepScan ts i st = st := by
  unfold renameStepScan
  rcases hty : (getD st i).typ with _ | t
  · rfl
  · dsimp only
    by_cases h2 : (getT ts t).kind = CC.TypeKind.func
    · rw [if_pos h2]
      rcases hbd : (getD st i).body with _ | b
      · rfl
      · dsimp only
        refine renameStatics_nop i b.sblock st ?_
        have heq : blockOfBody st i = b.sblock := by
          unfold blockOfBody
          rw [hbd]
        rw [← heq]
        exact hb
    · rw [if_neg h2]

theorem renameStep_sameShape (count : String → Nat) (ts : List TypeData)
    (st : List DeclData) (i : Nat) : sameShape st (renameStep count ts st i) := by
  unfold renameStep
  by_cases h1 : count (getD st i).name > 1
  · rw [if_pos h1]
    exact sameShape_trans
      (sameShape_updName st i (fun x => x.name ++ "_" ++ fileBase x.file))
      (renameStepScan_sameShape ts i _)
  · rw [if_neg h1]
    exact renameStepScan_sameShape ts i st

theorem renameStep_frame (count : String → Nat) (ts : List TypeData)
    (st : List DeclData) (i j : Nat) (hj : j ≠ i)
    (hb : ∀ s ∈ blockOfBody st i, s.sdecl ≠ some j) :
    getD (renameStep count ts st i) j = getD st j := by
  unfold renameStep
  by_cases h1 : count (getD st i).name > 1
  · rw [if_pos h1]
    have hblk : blockOfBody
        (updAt st i (fun x => { x with name := x.name ++ "_" ++ fileBase x.file })) i
        = blockOfBody st i :=
      blockOfBody_congr st _ i
        (((sameShape_updName st i (fun x => x.name ++ "_" ++ fileBase x.file)).2 i).2.2.2.1)
    rw [renameStepScan_frame ts i _ j (by rw [hblk]; exact hb)]
    exact getD_updAt_ne st i j _ hj
  · rw [if_neg h1]
    exact renameStepScan_frame ts i st j hb

theorem renameStep_nop (count : String → Nat) (ts : List TypeData)
    (st : List DeclData) (i : Nat)
    (hc : ¬ count (getD st i).name > 1)
    (hb : ∀ s ∈ blockOfBody st i, s.sop = CC.StmtOp.stmtDecl → ∀ di, s.sdecl = some di →
      (getD st di).storage &&& StaticBit = 0) :
    renameStep count ts st i = st := by
  unfold renameStep
  rw [if_neg hc]
  exact renameStepScan_nop ts i st hb

theorem renameLoop_append (count : String → Nat) (ts : List TypeData) :
    ∀ (l1 l2 : List Nat) (st : List DeclData),
      renameLoop count ts (l1 ++ l2) st = renameLoop count ts l2 (renameLoop count ts l1 st)
  | [], l2, st => rfl
  | i :: rest, l2, st => by
    rw [List.cons_append, renameLoop_cons, renameLoop_cons]
    exact renameLoop_append count ts rest l2 _

theorem renameLoop_sameShape (count : String → Nat) (ts : List TypeData) :
    ∀ (ids : List Nat) (st : List DeclData), sameShape st (renameLoop count ts ids st)
  | [], st => sameShape_refl st
  | i :: rest, st => by
    rw [renameLoop_cons]
    exact sameShape_trans (renameStep_sameShape count ts st i)
      (renameLoop_sameShape count ts rest _)

theorem renameLoop_frame (count : String → Nat) (ts : List TypeData)
    (st0 : List DeclData) (j : Nat) :
    ∀ (ids : List Nat) (st : List DeclData), j ∉ ids →
      (∀ i ∈ ids, ∀ s ∈ blockOfBody st0 i, s.sdecl ≠ some j) →
      sameShape st0 st →
      getD (renameLoop count ts ids st) j = getD st j
  | [], st, _, _, _ => rfl
  | i :: rest, st, hj, hb, hsh => by
    have hji : j ≠ i := by
      intro h
      exact hj (h ▸ List.mem_cons_self i rest)
    have hbi : ∀ s ∈ blockOfBody st i, s.sdecl ≠ some j := by
      have heq : blockOfBody st i = blockOfBody st0 i :=
        blockOfBody_congr st0 st i ((hsh.2 i).2.2.2.1)
      rw [heq]
      exact hb i (List.mem_cons_self i rest)
    rw [renameLoop_cons]
    rw [renameLoop_frame count ts st0 j rest _ (fun hm => hj (List.mem_cons_of_mem i hm))
      (fun i' hm => hb i' (List.mem_cons_of_mem i hm))
      (sameShape_trans hsh (renameStep_sameShape count ts st i))]
    exact renameStep_frame count ts st i j hji hbi

theorem renameLoop_nop (count : String → Nat) (ts : List TypeData) :
    ∀ (ids : List Nat) (st : List DeclData),
      (∀ i ∈ ids, ¬ count (getD st i).name > 1) →
      (∀ i ∈ ids, ∀ s ∈ blockOfBody st i, s.sop = CC.StmtOp.stmtDecl → ∀ di, s.sdecl = some di →
        (getD st di).storage &&& StaticBit = 0) →
      renameLoop count ts ids st = st
  | [], st, _, _ => rfl
  | i :: rest, st, h1, h2 => by
    rw [renameLoop_cons,
      renameStep_nop count ts st i (h1 i (List.mem_cons_self i rest))
        (h2 i (List.mem_cons_self i rest))]
    exact renameLoop_nop count ts rest st
      (fun i' hm => h1 i' (List.mem_cons_of_mem i hm))
      (fun i' hm => h2 i' (List.mem_cons_of_mem i hm))

end Rename

namespace Rename

/-- **C9.** (amended) The rename loop of `renameDecls` prefixes with the
enclosing function's (possibly conflict-suffixed) name exactly the
static-storage declarations that are *direct* `StmtDecl` children of the
function body's block: if `fid` is such a function in the top-level
list, and `di` the declaration of such a direct static child, then after
the loop `di`'s name is the function's final name, an underscore, and
`di`'s former name.  Statics nested deeper are not renamed (see the
counterexample theorem). -/
theorem static_local_prefix_spec
    (count : String → Nat) (ts : List TypeData) (st : List DeclData)
    (pre post : List Nat) (fid di t : Nat) (b s : RStmt) (sb1 sb2 : List RStmt)
    (hfidpre : fid ∉ pre) (hfidpost : fid ∉ post)
    (hdipre : di ∉ pre) (hdipost : di ∉ post) (hdifid : di ≠ fid)
    (hother : ∀ j ∈ pre ++ post, ∀ s' ∈ blockOfBody st j,
      s'.sdecl ≠ some di ∧ s'.sdecl ≠ some fid)
    (htyp : (getD st fid).typ = some t)
    (hkind : (getT ts t).kind = CC.TypeKind.func)
    (hbody : (getD st fid).body = some b)
    (hblock : b.sblock = sb1 ++ s :: sb2)
    (hsop : s.sop = CC.StmtOp.stmtDecl)
    (hsdecl : s.sdecl = some di)
    (hstatic : (getD st di).storage &&& StaticBit ≠ 0)
    (hrest : ∀ s' ∈ sb1 ++ sb2, s'.sdecl ≠ some di ∧ s'.sdecl ≠ some fid)
    (hlen : di < st.length) :
    (getD (renameLoop count ts (pre ++ fid :: post) st) di).name =
      (getD (renameLoop count ts (pre ++ fid :: post) st) fid).name ++ "_" ++
        (getD st di).name := by
  have hshA : sameShape st (renameLoop count ts pre st) :=
    renameLoop_sameShape count ts pre st
  have hpre_di : getD (renameLoop count ts pre st) di = getD st di :=
    renameLoop_frame count ts st di pre st hdipre
      (fun j hm s' hs' => (hother j (List.mem_append_left post hm) s' hs').1)
      (sameShape_refl st)
  have hpre_fid : getD (renameLoop count ts pre st) fid = getD st fid :=
    renameLoop_frame count ts st fid pre st hfidpre
      (fun j hm s' hs' => (hother j (List.mem_append_left post hm) s' hs').2)
      (sameShape_refl st)
  have key : ∀ st1 : List DeclData,
      getD st1 di = getD st di →
      (getD st1 fid).typ = some t →
      (getD st1 fid).body = some b →
      st1.length = st.length →
      getD (renameStepScan ts fid st1) di =
        { getD st di with name := (getD st1 fid).name ++ "_" ++ (getD st di).name } ∧
      getD (renameStepScan ts fid st1) fid = getD st1 fid := by
    intro st1 e1 e2 e3 e4
    unfold renameStepScan
    rw [e2]
    dsimp only
    rw [if_pos hkind, e3]
    dsimp only
    rw [hblock, renameStatics_append fid sb1 (s :: sb2) st1]
    have hMdi : getD (renameStatics fid sb1 st1) di = getD st1 di :=
      renameStatics_frame fid di sb1 st1
        (fun s' hm => (hrest s' (List.mem_append_left sb2 hm)).1)
    have hMfid : getD (renameStatics fid sb1 st1) fid = getD st1 fid :=
      renameStatics_frame fid fid sb1 st1
        (fun s' hm => (hrest s' (List.mem_append_left sb2 hm)).2)
    have hlenM : (renameStatics fid sb1 st1).length = st.length := by
      rw [(renameStatics_sameShape fid sb1 st1).1, e4]
    rw [renameStatics_cons, if_pos hsop, hsdecl]
    dsimp only
    rw [hMdi, e1, if_pos hstatic]
    constructor
    · rw [renameStatics_frame fid di sb2 _
        (fun s' hm => (hrest s' (List.mem_append_right sb1 hm)).1)]
      rw [getD_updAt_self _ di _ (by rw [hlenM]; exact hlen)]
      rw [hMdi, e1, hMfid]
    · rw [renameStatics_frame fid fid sb2 _
        (fun s' hm => (hrest s' (List.mem_append_right sb1 hm)).2)]
      rw [getD_updAt_ne _ di fid _ (Ne.symm hdifid)]
      exact hMfid
  have hstB : getD (renameStep count ts (renameLoop count ts pre st) fid) di =
      { getD st di with
        name := (getD (renameStep count ts (renameLoop count ts pre st) fid) fid).name
          ++ "_" ++ (getD st di).name } := by
    unfold renameStep
    by_cases hc : count (getD (renameLoop count ts pre st) fid).name > 1
    · rw [if_pos hc]
      have eshape := sameShape_updName (renameLoop count ts pre st) fid
        (fun x => x.name ++ "_" ++ fileBase x.file)
      have e1 : getD (updAt (renameLoop count ts pre st) fid
          (fun x => { x with name := x.name ++ "_" ++ fileBase x.file })) di = getD st di := by
        rw [getD_updAt_ne _ fid di _ hdifid]
        exact hpre_di
      have e2 : (getD (updAt (renameLoop count ts pre st) fid
          (fun x => { x with name := x.name ++ "_" ++ fileBase x.file })) fid).typ = some t := by
        rw [(eshape.2 fid).2.1, hpre_fid]
        exact htyp
      have e3 : (getD (updAt (renameLoop count ts pre st) fid
          (fun x => { x with name := x.name ++ "_" ++ fileBase x.file })) fid).body = some b := by
        rw [(eshape.2 fid).2.2.2.1, hpre_fid]
        exact hbody
      have e4 : (updAt (renameLoop count ts pre st) fid
          (fun x => { x with name := x.name ++ "_" ++ fileBase x.file })).length = st.length := by
        rw [updAt_length, hshA.1]
      obtain ⟨k1, k2⟩ := key _ e1 e2 e3 e4
      rw [k1, k2]
    · rw [if_neg hc]
      have e2 : (getD (renameLoop count ts pre st) fid).typ = some t := by
        rw [hpre_fid]; exact htyp
      have e3 : (getD (renameLoop count ts pre st) fid).body = some b := by
        rw [hpre_fid]; exact hbody
      obtain ⟨k1, k2⟩ := key _ hpre_di e2 e3 hshA.1
      rw [k1, k2]
  have hstB_shape : sameShape st (renameStep count ts (renameLoop count ts pre st) fid) :=
    sameShape_trans hshA (renameStep_sameShape count ts (renameLoop count ts pre st) fid)
  have hpost_di : getD (renameLoop count ts post
      (renameStep count ts (renameLoop count ts pre st) fid)) di =
      getD (renameStep count ts (renameLoop count ts pre st) fid) di :=
    renameLoop_frame count ts st di post _ hdipost
      (fun j hm s' hs' => (hother j (List.mem_append_right pre hm) s' hs').1) hstB_shape
  have hpost_fid : getD (renameLoop count ts post
      (renameStep count ts (renameLoop count ts pre st) fid)) fid =
      getD (renameStep count ts (renameLoop count ts pre st) fid) fid :=
    renameLoop_frame count ts st fid post _ hfidpost
      (fun j hm s' hs' => (hother j (List.mem_append_right pre hm) s' hs').2) hstB_shape
  rw [renameLoop_append count ts pre (fid :: post) st, renameLoop_cons]
  rw [hpost_di, hpost_fid, hstB]

theorem static_local_prefix_spec_witness :
    (getD (renameLoop (fun _ => 0) funcTypeStore [0] flatStaticStore) 1).name =
      (getD (renameLoop (fun _ => 0) funcTypeStore [0] flatStaticStore) 0).name ++ "_" ++
        (getD flatStaticStore 1).name :=
  static_local_prefix_spec (fun _ => 0) funcTypeStore flatStaticStore [] [] 0 1 0
    flatBody sdStmt1 [] []
    (by decide) (by decide) (by decide) (by decide) (by decide)
    (by simp) rfl rfl rfl rfl rfl rfl (by decide)
    (by simp) (by decide)

/-- **C9.** (counterexample to the claim as stated) A static local that
is not a *direct* statement of the function body block — here an `x`
declared one `if`-block deeper inside `f` — keeps its unprefixed name
`x` through `renameDecls`: the renamer only scans `d.Body.Block`
itself. -/
theorem renameDecls_nested_static_counterexample :
    (getD nestedStaticProg.declStore 1).storage &&& StaticBit ≠ 0 ∧
    (getD ((renameDecls nestedStaticProg).1).declStore 0).name = "f" ∧
    (getD ((renameDecls nestedStaticProg).1).declStore 1).name = "x" :=
  ⟨by decide, rfl, rfl⟩

end Rename

namespace Rename

theorem getD_map_esc : ∀ (st : List DeclData) (i : Nat),
    getD (st.map escDeclData) i = escDeclData (getD st i)
  | [], i => by cases i <;> rfl
  | x :: rest, 0 => rfl
  | x :: rest, i + 1 => getD_map_esc rest i

theorem escName_ne_empty (t : String) (h : t ≠ "") : escName t ≠ "" := by
  unfold escName
  split
  · intro hc
    have h2 := congrArg String.data hc
    simp [String.data_append] at h2
  · exact h

mutual

theorem backExpr_esc (st : List DeclData) : ∀ e : RExpr, backExpr st e = true →
    backExpr (st.map escDeclData) (escExpr e) = true
  | .mk op text left right list block after xd, h => by
    simp only [backExpr, Bool.and_eq_true] at h
    obtain ⟨⟨⟨⟨⟨h0, h1⟩, h2⟩, h3⟩, h4⟩, h5⟩ := h
    simp only [escExpr, backExpr, Bool.and_eq_true]
    refine ⟨⟨⟨⟨⟨?_, backOExpr_esc st left h1⟩, backOExpr_esc st right h2⟩,
      backExprList_esc st list h3⟩, backStmtList_esc st block h4⟩, backStmtList_esc st after h5⟩
    rcases xd with _ | i
    · cases op <;> rfl
    · cases op <;> simp_all [getD_map_esc, escDeclData, beq_iff_eq]
termination_by e => sizeOf e
decreasing_by all_goals (simp_wf <;> omega)

theorem backOExpr_esc (st : List DeclData) : ∀ oe : Option RExpr, backOExpr st oe = true →
    backOExpr (st.map escDeclData) (escOExpr oe) = true
  | none, _ => rfl
  | some e, h => backExpr_esc st e h
termination_by oe => sizeOf oe
decreasing_by all_goals (simp_wf <;> omega)

theorem backExprList_esc (st : List DeclData) : ∀ es : List RExpr, backExprList st es = true →
    backExprList (st.map escDeclData) (escExprList es) = true
  | [], _ => rfl
  | e :: es, h => by
    simp only [backExprList, Bool.and_eq_true] at h
    simp only [escExprList, backExprList, Bool.and_eq_true]
    exact ⟨backExpr_esc st e h.1, backExprList_esc st es h.2⟩
termination_by es => sizeOf es
decreasing_by all_goals (simp_wf <;> omega)

theorem backStmt_esc (st : List DeclData) : ∀ s : RStmt, backStmt st s = true →
    backStmt (st.map escDeclData) (escStmt s) = true
  | .mk op pre expr post body els block labels text decl, h => by
    simp only [backStmt, Bool.and_eq_true] at h
    obtain ⟨⟨⟨⟨⟨⟨p1, p2⟩, p3⟩, p4⟩, p5⟩, p6⟩, p7⟩ := h
    simp only [escStmt, backStmt, Bool.and_eq_true]
    exact ⟨⟨⟨⟨⟨⟨backOExpr_esc st pre p1, backOExpr_esc st expr p2⟩,
      backOExpr_esc st post p3⟩, backOStmt_esc st body p4⟩, backOStmt_esc st els p5⟩,
      backStmtList_esc st block p6⟩, backLabelList_esc st labels p7⟩
termination_by s => sizeOf s
decreasing_by all_goals (simp_wf <;> omega)

theorem backOStmt_esc (st : List DeclData) : ∀ os : Option RStmt, backOStmt st os = true →
    backOStmt (st.map escDeclData) (escOStmt os) = true
  | none, _ => rfl
  | some s, h => backStmt_esc st s h
termination_by os => sizeOf os
decreasing_by all_goals (simp_wf <;> omega)

theorem backStmtList_esc (st : List DeclData) : ∀ ss : List RStmt, backStmtList st ss = true →
    backStmtList (st.map escDeclData) (escStmtList ss) = true
  | [], _ => rfl
  | s :: ss, h => by
    simp only [backStmtList, Bool.and_eq_true] at h
    simp only [escStmtList, backStmtList, Bool.and_eq_true]
    exact ⟨backStmt_esc st s h.1, backStmtList_esc st ss h.2⟩
termination_by ss => sizeOf ss
decreasing_by all_goals (simp_wf <;> omega)

theorem backLabel_esc (st : List DeclData) : ∀ l : RLabel, backLabel st l = true →
    backLabel (st.map escDeclData) (escLabel l) = true
  | .mk op name expr, h => backOExpr_esc st expr h
termination_by l => sizeOf l
decreasing_by all_goals (simp_wf <;> omega)

theorem backLabelList_esc (st : List DeclData) : ∀ ls : List RLabel, backLabelList st ls = true →
    backLabelList (st.map escDeclData) (escLabelList ls) = true
  | [], _ => rfl
  | l :: ls, h => by
    simp only [backLabelList, Bool.and_eq_true] at h
    simp only [escLabelList, backLabelList, Bool.and_eq_true]
    exact ⟨backLabel_esc st l h.1, backLabelList_esc st ls h.2⟩
termination_by ls => sizeOf ls
decreasing_by all_goals (simp_wf <;> omega)

theorem backInit_esc (st : List DeclData) : ∀ ini : RInit, backInit st ini = true →
    backInit (st.map escDeclData) (escInit ini) = true
  | .mk expr braced, h => by
    simp only [backInit, Bool.and_eq_true] at h
    simp only [escInit, backInit, Bool.and_eq_true]
    exact ⟨backOExpr_esc st expr h.1, backInitList_esc st braced h.2⟩
termination_by ini => sizeOf ini
decreasing_by all_goals (simp_wf <;> omega)

theorem backOInit_esc (st : List DeclData) : ∀ oi : Option RInit, backOInit st oi = true →
    backOInit (st.map escDeclData) (escOInit oi) = true
  | none, _ => rfl
  | some ini, h => backInit_esc st ini h

theorem backInitList_esc (st : List DeclData) : ∀ is : List RInit, backInitList st is = true →
    backInitList (st.map escDeclData) (escInitList is) = true
  | [], _ => rfl
  | ini :: is, h => by
    simp only [backInitList, Bool.and_eq_true] at h
    simp only [escInitList, backInitList, Bool.and_eq_true]
    exact ⟨backInit_esc st ini h.1, backInitList_esc st is h.2⟩
termination_by is => sizeOf is
decreasing_by all_goals (simp_wf <;> omega)

end

end Rename

namespace Rename

mutual

theorem neExpr_esc : ∀ e : RExpr, neExpr e = true → neExpr (escExpr e) = true
  | .mk op text left right list block after xd, h => by
    simp only [neExpr, Bool.and_eq_true] at h
    obtain ⟨⟨⟨⟨⟨h0, h1⟩, h2⟩, h3⟩, h4⟩, h5⟩ := h
    simp only [escExpr, neExpr, Bool.and_eq_true]
    refine ⟨⟨⟨⟨⟨?_, neOExpr_esc left h1⟩, neOExpr_esc right h2⟩,
      neExprList_esc list h3⟩, neStmtList_esc block h4⟩, neStmtList_esc after h5⟩
    rcases xd with _ | i
    · cases op <;> rfl
    · cases op <;> try rfl
      have h0' : text ≠ "" := by simpa using h0
      simpa using escName_ne_empty text h0'
termination_by e => sizeOf e
decreasing_by all_goals (simp_wf <;> omega)

theorem neOExpr_esc : ∀ oe : Option RExpr, neOExpr oe = true →
    neOExpr (escOExpr oe) = true
  | none, _ => rfl
  | some e, h => neExpr_esc e h
termination_by oe => sizeOf oe
decreasing_by all_goals (simp_wf <;> omega)

theorem neExprList_esc : ∀ es : List RExpr, neExprList es = true →
    neExprList (escExprList es) = true
  | [], _ => rfl
  | e :: es, h => by
    simp only [neExprList, Bool.and_eq_true] at h
    simp only [escExprList, neExprList, Bool.and_eq_true]
    exact ⟨neExpr_esc e h.1, neExprList_esc es h.2⟩
termination_by es => sizeOf es
decreasing_by all_goals (simp_wf <;> omega)

theorem neStmt_esc : ∀ s : RStmt, neStmt s = true → neStmt (escStmt s) = true
  | .mk op pre expr post body els block labels text decl, h => by
    simp only [neStmt, Bool.and_eq_true] at h
    obtain ⟨⟨⟨⟨⟨⟨p1, p2⟩, p3⟩, p4⟩, p5⟩, p6⟩, p7⟩ := h
    simp only [escStmt, neStmt, Bool.and_eq_true]
    exact ⟨⟨⟨⟨⟨⟨neOExpr_esc pre p1, neOExpr_esc expr p2⟩, neOExpr_esc post p3⟩,
      neOStmt_esc body p4⟩, neOStmt_esc els p5⟩, neStmtList_esc block p6⟩,
      neLabelList_esc labels p7⟩
termination_by s => sizeOf s
decreasing_by all_goals (simp_wf <;> omega)

theorem neOStmt_esc : ∀ os : Option RStmt, neOStmt os = true → neOStmt (escOStmt os) = true
  | none, _ => rfl
  | some s, h => neStmt_esc s h
termination_by os => sizeOf os
decreasing_by all_goals (simp_wf <;> omega)

theorem neStmtList_esc : ∀ ss : List RStmt, neStmtList ss = true →
    neStmtList (escStmtList ss) = true
  | [], _ => rfl
  | s :: ss, h => by
    simp only [neStmtList, Bool.and_eq_true] at h
    simp only [escStmtList, neStmtList, Bool.and_eq_true]
    exact ⟨neStmt_esc s h.1, neStmtList_esc ss h.2⟩
termination_by ss => sizeOf ss
decreasing_by all_goals (simp_wf <;> omega)

theorem neLabel_esc : ∀ l : RLabel, neLabel l = true → neLabel (escLabel l) = true
  | .mk op name expr, h => neOExpr_esc expr h
termination_by l => sizeOf l
decreasing_by all_goals (simp_wf <;> omega)

theorem neLabelList_esc : ∀ ls : List RLabel, neLabelList ls = true →
    neLabelList (escLabelList ls) = true
  | [], _ => rfl
  | l :: ls, h => by
    simp only [neLabelList, Bool.and_eq_true] at h
    simp only [escLabelList, neLabelList, Bool.and_eq_true]
    exact ⟨neLabel_esc l h.1, neLabelList_esc ls h.2⟩
termination_by ls => sizeOf ls
decreasing_by all_goals (simp_wf <;> omega)

theorem neInit_esc : ∀ ini : RInit, neInit ini = true → neInit (escInit ini) = true
  | .mk expr braced, h => by
    simp only [neInit, Bool.and_eq_true] at h
    simp only [escInit, neInit, Bool.and_eq_true]
    exact ⟨neOExpr_esc expr h.1, neInitList_esc braced h.2⟩
termination_by ini => sizeOf ini
decreasing_by all_goals (simp_wf <;> omega)

theorem neOInit_esc : ∀ oi : Option RInit, neOInit oi = true → neOInit (escOInit oi) = true
  | none, _ => rfl
  | some ini, h => neInit_esc ini h

theorem neInitList_esc : ∀ is : List RInit, neInitList is = true →
    neInitList (escInitList is) = true
  | [], _ => rfl
  | ini :: is, h => by
    simp only [neInitList, Bool.and_eq_true] at h
    simp only [escInitList, neInitList, Bool.and_eq_true]
    exact ⟨neInit_esc ini h.1, neInitList_esc is h.2⟩
termination_by is => sizeOf is
decreasing_by all_goals (simp_wf <;> omega)

end

end Rename

namespace Rename

mutual

theorem backExpr_stable (st st' : List DeclData)
    (hn : ∀ j, (getD st' j).name = (getD st j).name ∨ (getD st j).name = "") :
    ∀ e : RExpr, backExpr st e = true → neExpr e = true → backExpr st' e = true
  | .mk op text left right list block after xd, h, hne => by
    simp only [backExpr, Bool.and_eq_true] at h
    simp only [neExpr, Bool.and_eq_true] at hne
    obtain ⟨⟨⟨⟨⟨h0, h1⟩, h2⟩, h3⟩, h4⟩, h5⟩ := h
    obtain ⟨⟨⟨⟨⟨n0, n1⟩, n2⟩, n3⟩, n4⟩, n5⟩ := hne
    simp only [backExpr, Bool.and_eq_true]
    refine ⟨⟨⟨⟨⟨?_, backOExpr_stable st st' hn left h1 n1⟩,
      backOExpr_stable st st' hn right h2 n2⟩,
      backExprList_stable st st' hn list h3 n3⟩,
      backStmtList_stable st st' hn block h4 n4⟩,
      backStmtList_stable st st' hn after h5 n5⟩
    rcases xd with _ | i
    · cases op <;> rfl
    · cases op <;> try rfl
      dsimp only at h0 n0 ⊢
      rcases hn i with heq | hemp
      · rw [heq]
        exact h0
      · rw [beq_iff_eq, hemp] at h0
        exact absurd h0.symm (by simpa using n0)
termination_by e => sizeOf e
decreasing_by all_goals (simp_wf <;> omega)

theorem backOExpr_stable (st st' : List DeclData)
    (hn : ∀ j, (getD st' j).name = (getD st j).name ∨ (getD st j).name = "") :
    ∀ oe : Option RExpr, backOExpr st oe = true → neOExpr oe = true →
      backOExpr st' oe = true
  | none, _, _ => rfl
  | some e, h, hne => backExpr_stable st st' hn e h hne
termination_by oe => sizeOf oe
decreasing_by all_goals (simp_wf <;> omega)

theorem backExprList_stable (st st' : List DeclData)
    (hn : ∀ j, (getD st' j).name = (getD st j).name ∨ (getD st j).name = "") :
    ∀ es : List RExpr, backExprList st es = true → neExprList es = true →
      backExprList st' es = true
  | [], _, _ => rfl
  | e :: es, h, hne => by
    simp only [backExprList, Bool.and_eq_true] at h ⊢
    simp only [neExprList, Bool.and_eq_true] at hne
    exact ⟨backExpr_stable st st' hn e h.1 hne.1, backExprList_stable st st' hn es h.2 hne.2⟩
termination_by es => sizeOf es
decreasing_by all_goals (simp_wf <;> omega)

theorem backStmt_stable (st st' : List DeclData)
    (hn : ∀ j, (getD st' j).name = (getD st j).name ∨ (getD st j).name = "") :
    ∀ s : RStmt, backStmt st s = true → neStmt s = true → backStmt st' s = true
  | .mk op pre expr post body els block labels text decl, h, hne => by
    simp only [backStmt, Bool.and_eq_true] at h ⊢
    simp only [neStmt, Bool.and_eq_true] at hne
    obtain ⟨⟨⟨⟨⟨⟨p1, p2⟩, p3⟩, p4⟩, p5⟩, p6⟩, p7⟩ := h
    obtain ⟨⟨⟨⟨⟨⟨q1, q2⟩, q3⟩, q4⟩, q5⟩, q6⟩, q7⟩ := hne
    exact ⟨⟨⟨⟨⟨⟨backOExpr_stable st st' hn pre p1 q1, backOExpr_stable st st' hn expr p2 q2⟩,
      backOExpr_stable st st' hn post p3 q3⟩, backOStmt_stable st st' hn body p4 q4⟩,
      backOStmt_stable st st' hn els p5 q5⟩, backStmtList_stable st st' hn block p6 q6⟩,
      backLabelList_stable st st' hn labels p7 q7⟩
termination_by s => sizeOf s
decreasing_by all_goals (simp_wf <;> omega)

theorem backOStmt_stable (st st' : List DeclData)
    (hn : ∀ j, (getD st' j).name = (getD st j).name ∨ (getD st j).name = "") :
    ∀ os : Option RStmt, backOStmt st os = true → neOStmt os = true →
      backOStmt st' os = true
  | none, _, _ => rfl
  | some s, h, hne => backStmt_stable st st' hn s h hne
termination_by os => sizeOf os
decreasing_by all_goals (simp_wf <;> omega)

theorem backStmtList_stable (st st' : List DeclData)
    (hn : ∀ j, (getD st' j).name = (getD st j).name ∨ (getD st j).name = "") :
    ∀ ss : List RStmt, backStmtList st ss = true → neStmtList ss = true →
      backStmtList st' ss = true
  | [], _, _ => rfl
  | s :: ss, h, hne => by
    simp only [backStmtList, Bool.and_eq_true] at h ⊢
    simp only [neStmtList, Bool.and_eq_true] at hne
    exact ⟨backStmt_stable st st' hn s h.1 hne.1, backStmtList_stable st st' hn ss h.2 hne.2⟩
termination_by ss => sizeOf ss
decreasing_by all_goals (simp_wf <;> omega)

theorem backLabel_stable (st st' : List DeclData)
    (hn : ∀ j, (getD st' j).name = (getD st j).name ∨ (getD st j).name = "") :
    ∀ l : RLabel, backLabel st l = true → neLabel l = true → backLabel st' l = true
  | .mk op name expr, h, hne => backOExpr_stable st st' hn expr h hne
termination_by l => sizeOf l
decreasing_by all_goals (simp_wf <;> omega)

theorem backLabelList_stable (st st' : List DeclData)
    (hn : ∀ j, (getD st' j).name = (getD st j).name ∨ (getD st j).name = "") :
    ∀ ls : List RLabel, backLabelList st ls = true → neLabelList ls = true →
      backLabelList st' ls = true
  | [], _, _ => rfl
  | l :: ls, h, hne => by
    simp only [backLabelList, Bool.and_eq_true] at h ⊢
    simp only [neLabelList, Bool.and_eq_true] at hne
    exact ⟨backLabel_stable st st' hn l h.1 hne.1, backLabelList_stable st st' hn ls h.2 hne.2⟩
termination_by ls => sizeOf ls
decreasing_by all_goals (simp_wf <;> omega)

theorem backInit_stable (st st' : List DeclData)
    (hn : ∀ j, (getD st' j).name = (getD st j).name ∨ (getD st j).name = "") :
    ∀ ini : RInit, backInit st ini = true → neInit ini = true → backInit st' ini = true
  | .mk expr braced, h, hne => by
    simp only [backInit, Bool.and_eq_true] at h ⊢
    simp only [neInit, Bool.and_eq_true] at hne
    exact ⟨backOExpr_stable st st' hn expr h.1 hne.1,
      backInitList_stable st st' hn braced h.2 hne.2⟩
termination_by ini => sizeOf ini
decreasing_by all_goals (simp_wf <;> omega)

theorem backOInit_stable (st st' : List DeclData)
    (hn : ∀ j, (getD st' j).name = (getD st j).name ∨ (getD st j).name = "") :
    ∀ oi : Option RInit, backOInit st oi = true → neOInit oi = true →
      backOInit st' oi = true
  | none, _, _ => rfl
  | some ini, h, hne => backInit_stable st st' hn ini h hne

theorem backInitList_stable (st st' : List DeclData)
    (hn : ∀ j, (getD st' j).name = (getD st j).name ∨ (getD st j).name = "") :
    ∀ is : List RInit, backInitList st is = true → neInitList is = true →
      backInitList st' is = true
  | [], _, _ => rfl
  | ini :: is, h, hne => by
    simp only [backInitList, Bool.and_eq_true] at h ⊢
    simp only [neInitList, Bool.and_eq_true] at hne
    exact ⟨backInit_stable st st' hn ini h.1 hne.1, backInitList_stable st st' hn is h.2 hne.2⟩
termination_by is => sizeOf is
decreasing_by all_goals (simp_wf <;> omega)

end

end Rename

namespace Rename

theorem getD_updAt_name_keep (st : List DeclData) (k : Nat) (f : DeclData → DeclData)
    (hf : ∀ x, (f x).name = x.name) (i : Nat) :
    (getD (updAt st k f) i).name = (getD st i).name := by
  by_cases hik : i = k
  · subst hik
    by_cases hl : i < st.length
    · rw [getD_updAt_self st i f hl, hf]
    · rw [updAt_out st i f (by omega)]
  · rw [getD_updAt_ne st k i f hik]

theorem namesStable_refl (st : List DeclData) : namesStable st st := fun _ => Or.inl rfl

theorem namesStable_trans {s1 s2 s3 : List DeclData}
    (h12 : namesStable s1 s2) (h23 : namesStable s2 s3) : namesStable s1 s3 := by
  intro j
  rcases h23 j with h | h
  · rcases h12 j with h' | h'
    · exact Or.inl (h.trans h')
    · exact Or.inr h'
  · rcases h12 j with h' | h'
    · exact Or.inr (h'.symm.trans h)
    · exact Or.inr h'

theorem namesStable_updAt_keep (st : List DeclData) (k : Nat) (f : DeclData → DeclData)
    (hf : ∀ x, (f x).name = x.name) : namesStable st (updAt st k f) :=
  fun j => Or.inl (getD_updAt_name_keep st k f hf j)

theorem namesStable_updAt_empty (st : List DeclData) (k : Nat) (f : DeclData → DeclData)
    (he : (getD st k).name = "") : namesStable st (updAt st k f) := by
  intro j
  by_cases hj : j = k
  · exact Or.inr (hj ▸ he)
  · exact Or.inl (by rw [getD_updAt_ne st k j f hj])

theorem treesEq_refl (st : List DeclData) : treesEq st st := ⟨rfl, fun _ => ⟨rfl, rfl⟩⟩

theorem treesEq_trans {s1 s2 s3 : List DeclData}
    (h12 : treesEq s1 s2) (h23 : treesEq s2 s3) : treesEq s1 s3 := by
  refine ⟨h23.1.trans h12.1, fun j => ?_⟩
  obtain ⟨a1, b1⟩ := h12.2 j
  obtain ⟨a2, b2⟩ := h23.2 j
  exact ⟨a2.trans a1, b2.trans b1⟩

theorem treesEq_updAt (st : List DeclData) (k : Nat) (f : DeclData → DeclData)
    (hf : ∀ x, (f x).init = x.init ∧ (f x).body = x.body) : treesEq st (updAt st k f) := by
  refine ⟨updAt_length st k f, fun j => ?_⟩
  by_cases hj : j = k
  · subst hj
    by_cases hl : j < st.length
    · rw [getD_updAt_self st j f hl]
      exact hf _
    · rw [updAt_out st j f (by omega)]
      exact ⟨rfl, rfl⟩
  · rw [getD_updAt_ne st k j f hj]
    exact ⟨rfl, rfl⟩

theorem buildDecls_inv (typedefs : List (Option Nat × Nat)) :
    ∀ (ids : List Nat) (st : List DeclData) (ts : List TypeData) (out : List Nat),
      namesStable st (buildDecls typedefs ids st ts out).1 ∧
      treesEq st (buildDecls typedefs ids st ts out).1
  | [], st, ts, out => ⟨namesStable_refl st, treesEq_refl st⟩
  | i :: rest, st, ts, out => by
    simp only [buildDecls]
    by_cases hb : (getD st i).blank = true
    · rw [if_pos hb]
      exact buildDecls_inv typedefs rest st ts (out ++ [i])
    · rw [if_neg hb]
      by_cases hn : (getD st i).name = ""
      · rw [if_pos hn]
        rcases hl : List.lookup (getD st i).typ typedefs with _ | td
        · dsimp only
          rcases ht : (getD st i).typ with _ | t
          · exact buildDecls_inv typedefs rest st ts out
          · dsimp only
            split
            · -- struct definition
              by_cases htag : (getT ts t).tag ≠ ""
              · rw [if_pos htag]
                refine ⟨namesStable_trans
                    (namesStable_updAt_empty st i
                      (fun x => { x with name := (getT ts t).tag, storage := TypedefBit }) hn)
                    ?_,
                  treesEq_trans
                    (treesEq_updAt st i
                      (fun x => { x with name := (getT ts t).tag, storage := TypedefBit })
                      (fun x => ⟨rfl, rfl⟩)) ?_⟩
                · exact (buildDecls_inv typedefs rest _ _ (out ++ [i])).1
                · exact (buildDecls_inv typedefs rest _ _ (out ++ [i])).2
              · rw [if_neg htag]
                refine ⟨namesStable_trans
                    (namesStable_updAt_keep st i (fun x => { x with blank := true })
                      (fun x => rfl)) ?_,
                  treesEq_trans
                    (treesEq_updAt st i (fun x => { x with blank := true })
                      (fun x => ⟨rfl, rfl⟩)) ?_⟩
                · exact (buildDecls_inv typedefs rest _ _ (out ++ [i])).1
                · exact (buildDecls_inv typedefs rest _ _ (out ++ [i])).2
            · -- enum flattening
              refine ⟨namesStable_trans
                  (namesStable_updAt_keep st i (fun x => { x with blank := true })
                    (fun x => rfl)) ?_,
                treesEq_trans
                  (treesEq_updAt st i (fun x => { x with blank := true })
                    (fun x => ⟨rfl, rfl⟩)) ?_⟩
              · exact (buildDecls_inv typedefs rest _ ts _).1
              · exact (buildDecls_inv typedefs rest _ ts _).2
            · -- other kinds: skipped entirely
              exact buildDecls_inv typedefs rest st ts out
        · dsimp only
          have hguard : (getD (updAt st td (fun x => { x with blank := true })) i).name = "" := by
            rw [getD_updAt_name_keep st td (fun x => { x with blank := true })
              (fun x => rfl) i]
            exact hn
          refine ⟨namesStable_trans
              (namesStable_trans
                (namesStable_updAt_keep st td (fun x => { x with blank := true })
                  (fun x => rfl))
                (namesStable_updAt_empty (updAt st td (fun x => { x with blank := true })) i
                  (fun x =>
                    { x with
                      name := (getD (updAt st td (fun x => { x with blank := true })) td).name,
                      storage := x.storage ||| TypedefBit })
                  hguard)) ?_,
            treesEq_trans
              (treesEq_trans
                (treesEq_updAt st td (fun x => { x with blank := true })
                  (fun x => ⟨rfl, rfl⟩))
                (treesEq_updAt (updAt st td (fun x => { x with blank := true })) i
                  (fun x =>
                    { x with
                      name := (getD (updAt st td (fun x => { x with blank := true })) td).name,
                      storage := x.storage ||| TypedefBit })
                  (fun x => ⟨rfl, rfl⟩))) ?_⟩
          · exact (buildDecls_inv typedefs rest _ ts (out ++ [i])).1
          · exact (buildDecls_inv typedefs rest _ ts (out ++ [i])).2
      · rw [if_neg hn]
        exact buildDecls_inv typedefs rest st _ (out ++ [i])

end Rename

namespace Rename

theorem renameDecls_eq (p : Prog) :
    (renameDecls p).1.declStore =
      renameLoop (countNames (stage2 p).1 (stage2 p).2.2) (stage2 p).2.1 (stage2 p).2.2
        (stage2 p).1 :=
  rfl

theorem backProg_escape (p : Prog) (h : backProg p = true) :
    backProg (keywordEscape p) = true := by
  unfold backProg at h ⊢
  unfold keywordEscape
  dsimp only at h ⊢
  rw [List.all_eq_true] at h ⊢
  intro x hx
  rw [List.mem_map] at hx
  obtain ⟨d, hd, rfl⟩ := hx
  have hb := h d hd
  simp only [backDeclData, escDeclData, Bool.and_eq_true] at hb ⊢
  exact ⟨backOInit_esc p.declStore d.init hb.1, backOStmt_esc p.declStore d.body hb.2⟩

theorem neProg_escape (p : Prog) (h : neProg p = true) :
    neProg (keywordEscape p) = true := by
  unfold neProg at h ⊢
  unfold keywordEscape
  dsimp only at h ⊢
  rw [List.all_eq_true] at h ⊢
  intro x hx
  rw [List.mem_map] at hx
  obtain ⟨d, hd, rfl⟩ := hx
  have hb := h d hd
  simp only [neDeclData, escDeclData, Bool.and_eq_true] at hb ⊢
  exact ⟨neOInit_esc d.init hb.1, neOStmt_esc d.body hb.2⟩

end Rename

namespace Rename

/-- **C1.** (amended) Back-reference integrity is preserved by
`renameDecls` under the side conditions that make its passes total
renames: if (a) the program initially satisfies the invariant, (b) no
resolved `Name` use has empty text, (c) after the list-building pass no
two list entries share a (non-blank-counted) name, and (d) no listed
function has a static direct local, then after `renameDecls` every
`Name` expression with a set `XDecl` still has `XDecl`'s name equal to
its text: the keyword escape renames declarations and use texts in
lockstep, the list-building pass renames only empty-named (hence
unreferenced) declarations, and under (c)/(d) the rename loop performs
no rename.  Without (c) the invariant genuinely breaks (see the
counterexample theorem): conflict suffixing rewrites `Decl.Name` but
not the `Text` of uses. -/
theorem renameDecls_backref_preserved (p : Prog)
    (h0 : backProg p = true) (h1 : neProg p = true)
    (h2 : ∀ i ∈ (stage2 p).2.2,
      countNames (stage2 p).1 (stage2 p).2.2 (getD (stage2 p).1 i).name ≤ 1)
    (h3 : ∀ i ∈ (stage2 p).2.2, ∀ s ∈ blockOfBody (stage2 p).1 i,
      s.sop = CC.StmtOp.stmtDecl →
      Option.all (fun di => (getD (stage2 p).1 di).storage &&& StaticBit == 0) s.sdecl
        = true) :
    backProg (renameDecls p).1 = true := by
  have h3' : ∀ i ∈ (stage2 p).2.2, ∀ s ∈ blockOfBody (stage2 p).1 i,
      s.sop = CC.StmtOp.stmtDecl → ∀ di, s.sdecl = some di →
      (getD (stage2 p).1 di).storage &&& StaticBit = 0 := by
    intro i hm s hs hop di hd
    have hh := h3 i hm s hs hop
    rw [hd] at hh
    simpa using hh
  have h2' : ∀ i ∈ (stage2 p).2.2,
      ¬ countNames (stage2 p).1 (stage2 p).2.2 (getD (stage2 p).1 i).name > 1 := by
    intro i hm
    have := h2 i hm
    omega
  have hloop : renameLoop (countNames (stage2 p).1 (stage2 p).2.2) (stage2 p).2.1
      (stage2 p).2.2 (stage2 p).1 = (stage2 p).1 :=
    renameLoop_nop _ _ _ _ h2' h3'
  have hfinal : (renameDecls p).1.declStore = (stage2 p).1 := by
    rw [renameDecls_eq p, hloop]
  unfold backProg
  rw [hfinal]
  have hb1 := backProg_escape p h0
  have hn1 := neProg_escape p h1
  unfold backProg at hb1
  unfold neProg at hn1
  rw [List.all_eq_true] at hb1 hn1
  obtain ⟨hns, hte⟩ := buildDecls_inv
    (buildTypedefs (keywordEscape p).declStore (keywordEscape p).decls [])
    (keywordEscape p).decls (keywordEscape p).declStore (keywordEscape p).typeStore []
  rw [List.all_eq_true]
  intro x hx
  obtain ⟨j, hj, hxe⟩ := List.mem_iff_getElem.mp hx
  have hgd : getD (stage2 p).1 j = x := by
    unfold getD
    rw [List.getD_eq_getElem _ _ hj]
    exact hxe
  have hjl : j < (keywordEscape p).declStore.length := by
    have hlen : ((stage2 p).1).length = (keywordEscape p).declStore.length := hte.1
    omega
  have hmem : getD (keywordEscape p).declStore j ∈ (keywordEscape p).declStore := by
    unfold getD
    rw [List.getD_eq_getElem _ _ hjl]
    exact List.getElem_mem hjl
  have hb1j := hb1 _ hmem
  have hn1j := hn1 _ hmem
  simp only [backDeclData, Bool.and_eq_true] at hb1j
  simp only [neDeclData, Bool.and_eq_true] at hn1j
  have hinit : x.init = (getD (keywordEscape p).declStore j).init := by
    rw [← hgd]
    exact (hte.2 j).1
  have hbody : x.body = (getD (keywordEscape p).declStore j).body := by
    rw [← hgd]
    exact (hte.2 j).2
  simp only [backDeclData, Bool.and_eq_true]
  constructor
  · rw [hinit]
    exact backOInit_stable _ _ hns _ hb1j.1 hn1j.1
  · rw [hbody]
    exact backOStmt_stable _ _ hns _ hb1j.2 hn1j.2

theorem renameDecls_backref_preserved_witness :
    backProg okProg = true ∧ backProg (renameDecls okProg).1 = true :=
  ⟨rfl, renameDecls_backref_preserved okProg rfl rfl (by decide) (by decide)⟩

/-- **C1.** (counterexample to the claim as stated) Conflict suffixing
breaks back-reference integrity: with two top-level declarations named
`v` (from `a.c` and `b.c`) and a use of the first one, the rename loop
rewrites the declaration's name to `v_a` while the use's `Text` remains
`v`, so after `renameDecls` the invariant `XDecl.Name = Text` is
false. -/
theorem renameDecls_backref_counterexample :
    backProg conflictProg = true ∧
    (getD ((renameDecls conflictProg).1).declStore 0).name = "v_a" ∧
    backProg ((renameDecls conflictProg).1) = false :=
  ⟨rfl, rfl, rfl⟩

end Rename
